import Mathlib

/-!
# Verification of the b3i conversion pipeline's Document Structuring Engine

Shallow embedding of `src/content_parser.py` (class `ContentParser`): the
metadata scanner, section segmenter, section classifier and the specialized
sub-parsers (CSV table, platform review, disclaimer).  Text is modelled as
`List Char`; a document is split into lines on `'\n'` exactly as Python's
`str.split('\n')` does.  Python library primitives used by the source
(`str.strip`, `str.startswith`, `in`, `str.replace`, `re` patterns appearing
in the source, `csv.reader` / `csv.DictReader` for the default dialect) are
modelled explicitly below.
-/

namespace B3i

abbrev Line := List Char

/-- Python whitespace characters (`str.strip`, regex `\s`), ASCII range. -/
def pyWs (c : Char) : Bool :=
  c = ' ' || c = '\t' || c = '\n' || c = '\r' || c = '\x0b' || c = '\x0c'

/-- Python `s.lstrip()`. -/
def lstrip (s : Line) : Line := s.dropWhile pyWs

/-- Python `s.rstrip()`. -/
def rstripWs (s : Line) : Line := (s.reverse.dropWhile pyWs).reverse

/-- Python `s.strip()`. -/
def pstrip (s : Line) : Line := rstripWs (lstrip s)

/-- Python `s.rstrip(':')` (strips every trailing colon). -/
def rstripColon (s : Line) : Line := (s.reverse.dropWhile (· = ':')).reverse

/-- Python `s.startswith(p)`. -/
def startsWith (p s : Line) : Bool := p.isPrefixOf s

/-- Python `p in s` (substring containment). -/
def containsSub (p : Line) : Line → Bool
  | [] => p.isEmpty
  | c :: rest => p.isPrefixOf (c :: rest) || containsSub p rest

/-- Python `s.split(sep)` for a one-character separator. -/
def splitOnC (sep : Char) : Line → List Line
  | [] => [[]]
  | c :: rest =>
    match splitOnC sep rest with
    | [] => [[]]
    | g :: gs => if c = sep then [] :: g :: gs else (c :: g) :: gs

/-- `content.split('\n')`. -/
def splitNl (s : Line) : List Line := splitOnC '\n' s

/-- `'\n'.join(lines)`. -/
def joinNl : List Line → Line
  | [] => []
  | [l] => l
  | l :: ls => l ++ '\n' :: joinNl ls

/-- `' '.join(parts)`. -/
def joinSp : List Line → Line
  | [] => []
  | [l] => l
  | l :: ls => l ++ ' ' :: joinSp ls

/-- One deletion pass of Python `s.replace(pat, '')`, fuelled (the fuel is
always instantiated with `s.length`, which suffices because each step
consumes at least one character). -/
def removeAllF (pat : Line) : Nat → Line → Line
  | _, [] => []
  | 0, s => s
  | fuel + 1, c :: rest =>
    if pat ≠ [] ∧ pat.isPrefixOf (c :: rest) then
      removeAllF pat fuel ((c :: rest).drop pat.length)
    else
      c :: removeAllF pat fuel rest

/-- Python `s.replace(pat, '')` for a non-empty pattern. -/
def removeAll (pat s : Line) : Line := removeAllF pat s.length s

/-- Python `s.split(':', 1)` when a colon is present: the text before the
first colon and the text after it.  `none` when `':' not in s`. -/
def splitFirstColon : Line → Option (Line × Line)
  | [] => none
  | c :: rest =>
    if c = ':' then some ([], rest)
    else (splitFirstColon rest).map (fun p => (c :: p.1, p.2))

/-- Ordered-dict insertion: overwrite in place if the key exists, else
append (Python `d[k] = v`). -/
def dinsert (k v : Line) (d : List (Line × Line)) : List (Line × Line) :=
  if d.any (fun p => p.1 = k) then
    d.map (fun p => if p.1 = k then (k, v) else p)
  else
    d ++ [(k, v)]

/-! ## Section segmenter (`_parse_content_sections`, lines 78–130)

A line is a heading marker iff its stripped form matches
`^(.+?)\s*\(h([1-6])\)$`: the lazy group together with the greedy `\s*`
make the captured heading the text before the final `(hN)` with trailing
whitespace removed, and the capture must be non-empty. -/

/-- Heading-marker test and capture for one raw line. -/
def headingMatch (line : Line) : Option (Line × Nat) :=
  match (pstrip line).reverse with
  | ')' :: d :: 'h' :: '(' :: restRev =>
    if '1' ≤ d ∧ d ≤ '6' then
      let htext := rstripWs restRev.reverse
      if htext = [] then none else some (htext, d.toNat - '0'.toNat)
    else none
  | _ => none

def isHeading (line : Line) : Bool := (headingMatch line).isSome

/-- A segmented block: the captured heading and level, plus the raw span it
came from (`rawLine` is the marker line itself, `contentLines` the verbatim
lines collected until the next marker). -/
structure RawSection where
  heading : Line
  level : Nat
  rawLine : Line
  contentLines : List Line
  deriving DecidableEq, Repr

/-- The raw span of a section: its marker line followed by its content
lines. -/
def spanOf (s : RawSection) : List Line := s.rawLine :: s.contentLines

/-- The segmentation loop: scan for a heading marker; on a match collect
every following line until the next marker into the open section.  Lines
seen while no section is open (before the first marker) are skipped. -/
def segAux : List Line → Option RawSection → List RawSection
  | [], none => []
  | [], some sec => [sec]
  | l :: ls, none =>
    match headingMatch l with
    | some (h, n) => segAux ls (some ⟨h, n, l, []⟩)
    | none => segAux ls none
  | l :: ls, some sec =>
    match headingMatch l with
    | some (h, n) => sec :: segAux ls (some ⟨h, n, l, []⟩)
    | none => segAux ls (some { sec with contentLines := sec.contentLines ++ [l] })

/-- `_parse_content_sections` segmentation of the body lines. -/
def segment (ls : List Line) : List RawSection := segAux ls none

/-- A section's `content` value: `'\n'.join(content_lines).strip()`. -/
def contentOf (s : RawSection) : Line := pstrip (joinNl s.contentLines)

/-! ## Metadata scanner (`_parse_metadata`, lines 26–76)

The Python `for i, line in enumerate(self.lines)` loop with its `elif`
chain, translated as a single pass over the line list.  The cursor starts
at `0` and is set to `i + 1` only by the `line.strip() == 'Content'`
branch, which also breaks the loop. -/

structure Metadata where
  target_keyword : Line := []
  target_geo : Line := []
  url_slug : Line := []
  meta_title : Line := []
  meta_description : Line := []
  notes : Line := []
  featured_image : List (Line × Line) := []
  deriving DecidableEq, Repr

/-- The `Featured image:` branch body (lines 57–71): collect the
description lines, then scan the ten lines `self.lines[i:i+10]` for the
`SEO Title:` / `ALT Tag:` sub-markers. -/
def featuredUpdate (fi : List (Line × Line)) (window rest : List Line) :
    List (Line × Line) :=
  let imgLines := (rest.takeWhile
      (fun l => pstrip l ≠ [] ∧ ¬ startsWith ("SEO Title:".data) l)).map pstrip
  if imgLines = [] then fi
  else
    let fi1 := dinsert ("description".data) imgLines.head! fi
    window.foldl
      (fun d l =>
        if startsWith ("SEO Title:".data) l then
          dinsert ("seo_title".data) (pstrip (removeAll ("SEO Title:".data) l)) d
        else if startsWith ("ALT Tag:".data) l then
          dinsert ("alt_tag".data) (pstrip (removeAll ("ALT Tag:".data) l)) d
        else d)
      fi1

/-- The metadata loop.  `i` is the enumeration index of the head of
`rem`; the returned `Nat` is the final `current_line` cursor. -/
def metaGo : Nat → List Line → Metadata → Metadata × Nat
  | _, [], m => (m, 0)
  | i, line :: rest, m =>
    if startsWith ("Target Keyword:".data) line then
      metaGo (i + 1) rest
        { m with target_keyword := pstrip (removeAll ("Target Keyword:".data) line) }
    else if startsWith ("Target Geo:".data) line then
      metaGo (i + 1) rest
        { m with target_geo := pstrip (removeAll ("Target Geo:".data) line) }
    else if pstrip line = "URL Slug:".data ∧ rest ≠ [] then
      metaGo (i + 1) rest { m with url_slug := pstrip rest.head! }
    else if startsWith ("Meta Title".data) line then
      metaGo (i + 1) rest
        { m with meta_title := if rest = [] then [] else pstrip rest.head! }
    else if startsWith ("Meta Description".data) line then
      metaGo (i + 1) rest
        { m with meta_description := if rest = [] then [] else pstrip rest.head! }
    else if startsWith ("Notes for MJ:".data) line then
      metaGo (i + 1) rest
        { m with notes :=
            pstrip (joinNl (rest.takeWhile (fun l => ¬ startsWith ("Content".data) l))) }
    else if startsWith ("Featured image:".data) line then
      metaGo (i + 1) rest
        { m with featured_image :=
            featuredUpdate m.featured_image ((line :: rest).take 10) rest }
    else if pstrip line = "Content".data then
      (m, i + 1)
    else
      metaGo (i + 1) rest m

/-- `_parse_metadata`: the populated record and the cursor it leaves for
the segmenter. -/
def parseMetadata (lines : List Line) : Metadata × Nat :=
  metaGo 0 lines {}

/-! ## Section classifier (`_detect_section_type`, lines 132–158) -/

inductive SectionType where
  | disclaimer | comparison_table | faq_section | platform_review
  | verdict | standard
  deriving DecidableEq, Repr

/-- Python `str.lower()`, ASCII range. -/
def asciiLower (c : Char) : Char :=
  if 'A' ≤ c ∧ c ≤ 'Z' then Char.ofNat (c.toNat + 32) else c

def lowerLine (s : Line) : Line := s.map asciiLower

/-- Regex `^\d+\.\s+\w+` (re.match, anchored at the start). -/
def numberedHeading (h : Line) : Bool :=
  let ds := h.takeWhile Char.isDigit
  let r1 := h.drop ds.length
  ds ≠ [] &&
    match r1 with
    | '.' :: r2 =>
      let ws := r2.takeWhile pyWs
      ws ≠ [] &&
        match r2.drop ws.length with
        | c :: _ => c.isAlpha || c.isDigit || c = '_'
        | [] => false
    | _ => false

/-- `_detect_section_type`: the fixed `if`/`elif` chain of heuristics. -/
def detectSectionType (heading content : Line) : SectionType :=
  let hl := lowerLine heading
  if containsSub ("notice".data) hl || containsSub ("disclaimer".data) hl then
    .disclaimer
  else if startsWith ("csv".data) (pstrip content) then
    .comparison_table
  else if containsSub ("faq".data) hl || containsSub ("frequently asked".data) hl then
    .faq_section
  else if numberedHeading heading then
    .platform_review
  else if containsSub ("verdict".data) hl || containsSub ("conclusion".data) hl then
    .verdict
  else
    .standard

/-! ## Platform review parser (`_parse_platform_review`, lines 169–223)

Heading pattern `^\d+\.\s+(.+?)\s*-\s*(.+)$` (re.match): greedy `\d+`
then a literal `.`, a greedy-with-backtracking `\s+`, a lazy name group,
`\s*-\s*` and a greedy tagline group.  The backtracking order of the
engine is: longest `\s+` run first and, for each, shortest name group
first. -/

/-- Try `\s*-\s*(.+)$` at a suffix: the first `\s*` must reach a `-`
exactly; the second is greedy, backing off one character when the rest
would otherwise be empty. -/
def trySepSuffix (s : Line) : Option Line :=
  match s.dropWhile pyWs with
  | '-' :: r2 =>
    let t := r2.dropWhile pyWs
    if t ≠ [] then some t
    else
      match r2.reverse with
      | c :: _ => some [c]
      | [] => none
  | _ => none

/-- The lazy name group: grow the captured prefix one character at a time
until `\s*-\s*(.+)$` matches the rest. -/
def lazySplit (acc : Line) : Line → Option (Line × Line)
  | [] => none
  | c :: rest =>
    match trySepSuffix rest with
    | some g2 => some (acc ++ [c], g2)
    | none => lazySplit (acc ++ [c]) rest

/-- Backtracking over the length of the `\s+` run (longest first). -/
def trySepFromWs : Nat → Line → Option (Line × Line)
  | 0, _ => none
  | w + 1, r =>
    match lazySplit [] (r.drop (w + 1)) with
    | some p => some p
    | none => trySepFromWs w r

/-- Full match of `^\d+\.\s+(.+?)\s*-\s*(.+)$` against a heading. -/
def headingSepMatch (h : Line) : Option (Line × Line) :=
  let ds := h.takeWhile Char.isDigit
  if ds = [] then none
  else
    match h.drop ds.length with
    | '.' :: r => trySepFromWs (r.takeWhile pyWs).length r
    | _ => none

structure ReviewData where
  platform_name : Line := []
  tagline : Line := []
  intro : Line := []
  pros : List Line := []
  cons : List Line := []
  details : List (Line × Line) := []
  verdict : Line := []
  deriving DecidableEq, Repr

inductive RState where
  | intro | pros | cons | details | verdict
  deriving DecidableEq, Repr

/-- One iteration of the content loop of `_parse_platform_review`
(lines 194–218): the `elif` chain over the stripped line, updating the
current state, the record and the intro accumulator. -/
def reviewStep (st : RState) (r : ReviewData) (acc : List Line) (line : Line) :
    RState × ReviewData × List Line :=
  let s := pstrip line
  if startsWith ("Pros:".data) s then (.pros, r, acc)
  else if startsWith ("Cons:".data) s then (.cons, r, acc)
  else if containsSub ("Compatibility:".data) s || containsSub ("Compliance:".data) s then
    (.details, r, acc)
  else if startsWith ("Verdict:".data) s then (.verdict, r, acc)
  else if startsWith ("•".data) s then
    let item := pstrip (removeAll ("•".data) s)
    match st with
    | .pros => (st, { r with pros := r.pros ++ [item] }, acc)
    | .cons => (st, { r with cons := r.cons ++ [item] }, acc)
    | _ => (st, r, acc)
  else if st = .intro ∧ s ≠ [] then (st, r, acc ++ [s])
  else if st = .verdict ∧ s ≠ [] then
    (st, { r with verdict := r.verdict ++ s ++ [' '] }, acc)
  else if st = .details ∧ containsSub (":".data) s then
    match splitFirstColon s with
    | some (k, v) => (st, { r with details := dinsert (pstrip k) (pstrip v) r.details }, acc)
    | none => (st, r, acc)
  else (st, r, acc)

/-- The content loop folded over all lines. -/
def reviewLoop (ls : List Line) (st : RState) (r : ReviewData) (acc : List Line) :
    RState × ReviewData × List Line :=
  match ls with
  | [] => (st, r, acc)
  | l :: rest =>
    let p := reviewStep st r acc l
    reviewLoop rest p.1 p.2.1 p.2.2

/-- `_parse_platform_review`. -/
def parsePlatformReview (heading content : Line) : ReviewData :=
  let r0 : ReviewData :=
    match headingSepMatch heading with
    | some (g1, g2) => { platform_name := pstrip g1, tagline := pstrip g2 }
    | none => { platform_name := heading }
  let p := reviewLoop (splitNl content) .intro r0 []
  let r := p.2.1
  { r with intro := joinSp p.2.2, verdict := pstrip r.verdict }

/-! ## Disclaimer parser (`_parse_disclaimer`, lines 225–260) -/

structure DGroup where
  title : Line
  content : List Line
  deriving DecidableEq, Repr

/-- A stripped line that opens a named group: non-bullet and ending with
a colon. -/
def isTitledStr (s : Line) : Bool :=
  (match s.reverse with | ':' :: _ => true | _ => false) && ¬ startsWith ("•".data) s

/-- Flush the current group when its title or content is non-empty. -/
def dflush (cur : DGroup) (out : List DGroup) : List DGroup :=
  if cur.title ≠ [] ∨ cur.content ≠ [] then out ++ [cur] else out

/-- The disclaimer line loop. -/
def disclaimerLoop (ls : List Line) (cur : DGroup) (out : List DGroup) :
    List DGroup :=
  match ls with
  | [] => dflush cur out
  | l :: rest =>
    let s := pstrip l
    if isTitledStr s then
      disclaimerLoop rest ⟨rstripColon s, []⟩ (dflush cur out)
    else if s ≠ [] then
      disclaimerLoop rest { cur with content := cur.content ++ [s] } out
    else
      disclaimerLoop rest cur out

/-- `_parse_disclaimer`: the list of `{title, content}` groups. -/
def parseDisclaimer (content : Line) : List DGroup :=
  disclaimerLoop (splitNl content) ⟨[], []⟩ []

/-! ## CSV table parser (`_parse_csv_table`, lines 160–167)

`re.sub(r'^csv\s*\n', '', content, flags=re.MULTILINE)` removes, at every
line start, a literal `csv` followed by the longest whitespace run that
still ends in a newline (greedy `\s*` with backtracking).  The remainder
is stripped and handed to `csv.DictReader`, whose underlying reader for
the default dialect is modelled as a character state machine; it can fail
(raise) when a carriage return is followed by a character other than a
newline inside a record. -/

/-- Length consumed by a match of `csv\s*\n` at this position, if any:
`3` plus the prefix of the maximal whitespace run up to its last
newline. -/
def csvMarkerLen (s : Line) : Option Nat :=
  if ("csv".data).isPrefixOf s then
    let r := (s.drop 3).takeWhile pyWs
    let k := (r.reverse.takeWhile (· ≠ '\n')).length
    if k = r.length then none else some (3 + (r.length - k))
  else none

/-- The `re.sub` scan, fuelled (fuel `s.length` suffices: every step
consumes at least one character).  `atStart` tracks whether the current
position is a line start (`^` with `re.MULTILINE`). -/
def csvSubF : Nat → Bool → Line → Line
  | _, _, [] => []
  | 0, _, s => s
  | fuel + 1, atStart, c :: rest =>
    match if atStart then csvMarkerLen (c :: rest) else none with
    | some n => csvSubF fuel true ((c :: rest).drop n)
    | none => c :: csvSubF fuel (c = '\n') rest

/-- `re.sub(r'^csv\s*\n', '', content, flags=re.MULTILINE)`. -/
def csvSub (s : Line) : Line := csvSubF s.length true s

/-- States of the `csv.reader` record scanner (default dialect,
non-strict). -/
inductive CsvSt where
  | startRecord | startField | inField | inQuoted | quoteInQuoted | eatCrnl
  deriving DecidableEq, Repr

/-- One character step of the reader.  The running record scanner state is
`(st, field, record, emitted records)`; `none` is the reader's error
("new-line character seen in unquoted field"), raised when a character
other than a newline follows a carriage return in an unquoted context. -/
def csvStep (st : CsvSt) (field : Line) (rec : List Line)
    (out : List (List Line)) (c : Char) :
    Option (CsvSt × Line × List Line × List (List Line)) :=
  match st with
  | .startRecord =>
    if c = '\n' then some (.startRecord, [], [], out ++ [[]])
    else if c = '\r' then some (.eatCrnl, [], [], out)
    else if c = '"' then some (.inQuoted, [], [], out)
    else if c = ',' then some (.startField, [], [[]], out)
    else some (.inField, [c], [], out)
  | .startField =>
    if c = '\n' then some (.startRecord, [], [], out ++ [rec ++ [field]])
    else if c = '\r' then some (.eatCrnl, [], rec ++ [field], out)
    else if c = '"' then some (.inQuoted, field, rec, out)
    else if c = ',' then some (.startField, [], rec ++ [field], out)
    else some (.inField, field ++ [c], rec, out)
  | .inField =>
    if c = '\n' then some (.startRecord, [], [], out ++ [rec ++ [field]])
    else if c = '\r' then some (.eatCrnl, [], rec ++ [field], out)
    else if c = ',' then some (.startField, [], rec ++ [field], out)
    else some (.inField, field ++ [c], rec, out)
  | .inQuoted =>
    if c = '"' then some (.quoteInQuoted, field, rec, out)
    else some (.inQuoted, field ++ [c], rec, out)
  | .quoteInQuoted =>
    if c = '"' then some (.inQuoted, field ++ ['"'], rec, out)
    else if c = ',' then some (.startField, [], rec ++ [field], out)
    else if c = '\n' then some (.startRecord, [], [], out ++ [rec ++ [field]])
    else if c = '\r' then some (.eatCrnl, [], rec ++ [field], out)
    else some (.inField, field ++ [c], rec, out)
  | .eatCrnl =>
    if c = '\n' then some (.startRecord, [], [], out ++ [rec])
    else if c = '\r' then some (.eatCrnl, field, rec, out)
    else none

/-- Run the scanner over the whole text and finalize at end of input
(the last line has no trailing newline; an open quoted field is saved
without error in non-strict mode). -/
def csvRun : CsvSt → Line → List Line → List (List Line) → Line →
    Option (List (List Line))
  | st, field, rec, out, [] =>
    match st with
    | .startRecord => some out
    | .startField => some (out ++ [rec ++ [field]])
    | .inField => some (out ++ [rec ++ [field]])
    | .inQuoted => some (out ++ [rec ++ [field]])
    | .quoteInQuoted => some (out ++ [rec ++ [field]])
    | .eatCrnl => some (out ++ [rec])
  | st, field, rec, out, c :: rest =>
    match csvStep st field rec out c with
    | some (st', f', r', o') => csvRun st' f' r' o' rest
    | none => none

/-- `list(csv.reader(StringIO(s)))` for the default dialect. -/
def csvRecords (s : Line) : Option (List (List Line)) :=
  csvRun .startRecord [] [] [] s

/-- A `DictReader` row: the header-to-cell mapping in header order, with
cells missing from a short row defaulted to the reader's `restval`
(`None`, modelled as `none`), and surplus cells of a long row collected
under the `restkey` (`None`) entry. -/
structure TableRow where
  cells : List (Line × Option Line)
  rest : List Line
  deriving DecidableEq, Repr

/-- Build one `DictReader` row from the header and a raw record. -/
def mkRow (header row : List Line) : TableRow :=
  { cells :=
      (header.zip row).map (fun p => (p.1, some p.2)) ++
        (header.drop row.length).map (fun k => (k, (none : Option Line)))
    rest := row.drop header.length }

/-- `list(csv.DictReader(...))` over a record list: the first record is
the header, blank records are skipped, every other record becomes a
row. -/
def dictRows : List (List Line) → List TableRow
  | [] => []
  | header :: recs => (recs.filter (· ≠ [])).map (mkRow header)

/-- `_parse_csv_table`; `none` models a `csv.Error` escaping the call. -/
def parseCsvTable (content : Line) : Option (List TableRow) :=
  (csvRecords (pstrip (csvSub content))).map dictRows

/-! ## Whole-document parse (`parse`, lines 18–24) -/

structure Section where
  type : SectionType
  heading : Line
  level : Nat
  content : Line
  rawLine : Line
  contentLines : List Line
  table_data : Option (Option (List TableRow)) := none
  review_data : Option ReviewData := none
  disclaimer_data : Option (List DGroup) := none
  deriving DecidableEq, Repr

/-- Lines 110–126: classify a segmented block and attach its sub-parsed
payload. -/
def enrich (rs : RawSection) : Section :=
  let content := contentOf rs
  let ty := detectSectionType rs.heading content
  { type := ty
    heading := rs.heading
    level := rs.level
    content := content
    rawLine := rs.rawLine
    contentLines := rs.contentLines
    table_data := if ty = .comparison_table then some (parseCsvTable content) else none
    review_data := if ty = .platform_review then some (parsePlatformReview rs.heading content) else none
    disclaimer_data := if ty = .disclaimer then some (parseDisclaimer content) else none }

/-- `ContentParser(content).parse()`: metadata plus the enriched section
list, segmenting from the post-metadata cursor. -/
def parseDocument (content : Line) : Metadata × List Section :=
  let lines := splitNl content
  let mc := parseMetadata lines
  (mc.1, (segment (lines.drop mc.2)).map enrich)

/-! ## Derived notions used by the verification -/

def notHeading (l : Line) : Bool := ! isHeading l

/-- Keep only the lines that are non-blank after stripping ("blank lines
aside"). -/
def filterNB (ls : List Line) : List Line := ls.filter (fun l => ¬ (pstrip l).isEmpty)

/-- The spans the parse keeps: the metadata header (all lines up to the
cursor) followed by, for each parsed section, its heading marker line and
its raw content lines. -/
def reconstructLines (s : Line) : List Line :=
  let lines := splitNl s
  let mc := parseMetadata lines
  lines.take mc.2 ++ (parseDocument s).2.flatMap (fun sec => sec.rawLine :: sec.contentLines)

/-- The classifier as the specification words it: an ordered list of
predicate/tag pairs, evaluated top-down, first match wins, default
`standard`. -/
def classifierRules : List ((Line → Line → Bool) × SectionType) :=
  [ (fun h _ => containsSub ("notice".data) (lowerLine h) ||
        containsSub ("disclaimer".data) (lowerLine h), .disclaimer),
    (fun _ c => startsWith ("csv".data) (pstrip c), .comparison_table),
    (fun h _ => containsSub ("faq".data) (lowerLine h) ||
        containsSub ("frequently asked".data) (lowerLine h), .faq_section),
    (fun h _ => numberedHeading h, .platform_review),
    (fun h _ => containsSub ("verdict".data) (lowerLine h) ||
        containsSub ("conclusion".data) (lowerLine h), .verdict) ]

def firstMatch (h c : Line) : List ((Line → Line → Bool) × SectionType) → SectionType
  | [] => .standard
  | r :: rs => if r.1 h c then r.2 else firstMatch h c rs

def classifierSpec (h c : Line) : SectionType := firstMatch h c classifierRules

/-- A stripped line that changes the platform-review state machine's
state. -/
def reviewMarker (s : Line) : Bool :=
  startsWith ("Pros:".data) s || startsWith ("Cons:".data) s ||
    containsSub ("Compatibility:".data) s || containsSub ("Compliance:".data) s ||
    startsWith ("Verdict:".data) s

/-- A line removed by the `re.sub` marker deletion: the literal `csv`
followed only by whitespace. -/
def isCsvMarkerLine (l : Line) : Bool := ("csv".data).isPrefixOf l && (l.drop 3).all pyWs

/-- Drop leading all-whitespace lines as long as they are not the final
line (the final line has no terminating newline, so the `\s*\n` of the
marker pattern can never swallow it). -/
def dropBlankNonFinal : List Line → List Line
  | [] => []
  | [l] => [l]
  | l :: rest => if l.all pyWs then dropBlankNonFinal rest else l :: rest

/-- Line-level description of the `re.sub` deletion: wherever a `csv`
marker line occurs (other than as the final line), remove it together
with the following non-final blank lines, then continue. -/
def specCsvStripF : Nat → List Line → List Line
  | _, [] => []
  | _, [l] => [l]
  | 0, ls => ls
  | fuel + 1, l :: rest =>
    if isCsvMarkerLine l then specCsvStripF fuel (dropBlankNonFinal rest)
    else l :: specCsvStripF fuel rest

def specCsvStrip (ls : List Line) : List Line := specCsvStripF ls.length ls

/-! ## General lemmas about the embedding -/

theorem reviewStep_name_tagline (st : RState) (r : ReviewData) (acc : List Line)
    (l : Line) :
    (reviewStep st r acc l).2.1.platform_name = r.platform_name ∧
      (reviewStep st r acc l).2.1.tagline = r.tagline := by
  unfold reviewStep
  dsimp only
  split_ifs <;>
    first
      | exact ⟨rfl, rfl⟩
      | (cases st <;> exact ⟨rfl, rfl⟩)
      | (rcases splitFirstColon (pstrip l) with _ | ⟨k, v⟩ <;> exact ⟨rfl, rfl⟩)

theorem reviewLoop_name_tagline :
    ∀ (ls : List Line) (st : RState) (r : ReviewData) (acc : List Line),
      (reviewLoop ls st r acc).2.1.platform_name = r.platform_name ∧
        (reviewLoop ls st r acc).2.1.tagline = r.tagline
  | [], _, _, _ => ⟨rfl, rfl⟩
  | l :: rest, st, r, acc => by
    have h := reviewStep_name_tagline st r acc l
    have ih := reviewLoop_name_tagline rest (reviewStep st r acc l).1
      (reviewStep st r acc l).2.1 (reviewStep st r acc l).2.2
    exact ⟨ih.1.trans h.1, ih.2.trans h.2⟩

/-! ## C2 — classifier priority order -/

/-- C2 counterexample: a heading that contains `FAQ` (case-insensitively)
and starts with the numeric pattern `3. ` is not always classified
`faq_section`: when it also contains `Disclaimer`, rule 1 fires first and
the type is `disclaimer`.  This refutes the claim's universal `FAQ`
consequence at a concrete input. -/
theorem c2_counterexample :
    containsSub ("faq".data) (lowerLine ("3. FAQ Disclaimer".data)) = true ∧
      numberedHeading ("3. FAQ Disclaimer".data) = true ∧
      detectSectionType ("3. FAQ Disclaimer".data) [] = .disclaimer ∧
      detectSectionType ("3. FAQ Disclaimer".data) [] ≠ .faq_section := by
  decide

/-- C2 (amended): the classifier equals the first-match evaluation of the
fixed ordered rule list (disclaimer, comparison_table, faq_section,
platform_review, verdict, standard), and a heading containing `FAQ` with a
leading numeric pattern is classified `faq_section` provided no earlier
rule fires (its heading does not contain `notice`/`disclaimer` and its
content does not begin with `csv`). -/
theorem c2_classifier_priority :
    (∀ h c, detectSectionType h c = classifierSpec h c) ∧
      ∀ h c,
        containsSub ("faq".data) (lowerLine h) = true →
        numberedHeading h = true →
        containsSub ("notice".data) (lowerLine h) = false →
        containsSub ("disclaimer".data) (lowerLine h) = false →
        startsWith ("csv".data) (pstrip c) = false →
        detectSectionType h c = .faq_section := by
  refine ⟨fun _ _ => rfl, fun h c hf _ hn hd hcsv => ?_⟩
  simp [detectSectionType, hf, hn, hd, hcsv]

/-- C2 witness: the amended theorem applied at a concrete heading and
content. -/
theorem c2_witness :
    detectSectionType ("3. FAQ about casinos".data) ("Q and A".data) = .faq_section :=
  c2_classifier_priority.2 _ _ (by decide) (by decide) (by decide) (by decide) (by decide)

/-! ## C5 — platform name / tagline extraction from the heading -/

/-- C5 counterexample: for the heading `1. Casumo` the separator is
absent and the code stores the whole heading, numeric prefix included, as
`platform_name` — not the remainder `Casumo` that the claim requires. -/
theorem c5_counterexample :
    (parsePlatformReview ("1. Casumo".data) []).platform_name = "1. Casumo".data ∧
      (parsePlatformReview ("1. Casumo".data) []).tagline = [] ∧
      "1. Casumo".data ≠ "Casumo".data := by
  decide

/-- C5 (amended): heading `1. Casumo - Play More, Worry Less` yields
`platform_name = Casumo` and `tagline = Play More, Worry Less`; for every
heading on which the separator pattern fails to match, the entire heading
(numeric prefix included) becomes `platform_name` and `tagline` stays
empty. -/
theorem c5_heading_extraction :
    ((parsePlatformReview ("1. Casumo - Play More, Worry Less".data) []).platform_name =
        "Casumo".data ∧
      (parsePlatformReview ("1. Casumo - Play More, Worry Less".data) []).tagline =
        "Play More, Worry Less".data) ∧
      ∀ h c, headingSepMatch h = none →
        (parsePlatformReview h c).platform_name = h ∧
          (parsePlatformReview h c).tagline = [] := by
  refine ⟨⟨by decide, by decide⟩, fun h c hm => ?_⟩
  unfold parsePlatformReview
  rw [hm]
  exact ⟨(reviewLoop_name_tagline _ _ _ _).1, (reviewLoop_name_tagline _ _ _ _).2⟩

/-- C5 witness: the amended theorem applied at a concrete heading without
a separator. -/
theorem c5_witness :
    (parsePlatformReview ("2. NoTag".data) ("intro".data)).platform_name =
        "2. NoTag".data ∧
      (parsePlatformReview ("2. NoTag".data) ("intro".data)).tagline = [] :=
  c5_heading_extraction.2 _ _ (by decide)

/-! ## C3 — inputs without a `Content` marker line -/

theorem metaGo_cursor_zero :
    ∀ (ls : List Line) (i : Nat) (m : Metadata),
      (∀ l ∈ ls, pstrip l ≠ "Content".data) → (metaGo i ls m).2 = 0
  | [], _, _, _ => rfl
  | l :: rest, i, m, h => by
    have hl := h l (List.mem_cons_self l rest)
    have ih : ∀ i' m', (metaGo i' rest m').2 = 0 := fun i' m' =>
      metaGo_cursor_zero rest i' m' (fun x hx => h x (List.mem_cons_of_mem l hx))
    unfold metaGo
    split_ifs
    all_goals exact ih _ _

theorem segAux_some_ne_nil :
    ∀ (ls : List Line) (sec : RawSection), segAux ls (some sec) ≠ []
  | [], _ => by simp [segAux]
  | l :: ls, sec => by
    unfold segAux
    rcases h : headingMatch l with _ | ⟨hd, n⟩
    · exact segAux_some_ne_nil ls _
    · simp

theorem segAux_none_nil_iff :
    ∀ ls : List Line, segAux ls none = [] ↔ ∀ l ∈ ls, isHeading l = false
  | [] => by simp [segAux]
  | l :: ls => by
    unfold segAux
    rcases h : headingMatch l with _ | ⟨hd, n⟩
    · rw [segAux_none_nil_iff ls]
      constructor
      · intro hall x hx
        rcases List.mem_cons.1 hx with rfl | hx'
        · simp [isHeading, h]
        · exact hall x hx'
      · intro hall x hx
        exact hall x (List.mem_cons_of_mem l hx)
    · constructor
      · intro hfalse
        exact absurd hfalse (segAux_some_ne_nil ls _)
      · intro hall
        have := hall l (List.mem_cons_self l ls)
        rw [isHeading, h] at this
        simp at this

/-- C3 counterexample: the input `A (h2)\nx` contains no line that strips
to `Content`, yet segmentation does not yield zero sections — the cursor
stays at `0` and the whole document is segmented, producing one
section. -/
theorem c3_counterexample :
    ((splitNl ("A (h2)\nx".data)).all (fun l => !(pstrip l == "Content".data))) = true ∧
      (parseDocument ("A (h2)\nx".data)).2 ≠ [] := by
  decide

/-- C3 (amended): when no line strips to `Content`, the metadata scanner
never advances the cursor (it stays `0`) and the parse does not fail;
segmentation then scans the whole document from its first line, so it
produces zero sections exactly when the document contains no
heading-marker line — not unconditionally. -/
theorem c3_no_content_marker :
    ∀ s : Line, (∀ l ∈ splitNl s, pstrip l ≠ "Content".data) →
      (parseMetadata (splitNl s)).2 = 0 ∧
        ((parseDocument s).2 = [] ↔ ∀ l ∈ splitNl s, isHeading l = false) := by
  intro s h
  have hc : (parseMetadata (splitNl s)).2 = 0 := metaGo_cursor_zero _ 0 _ h
  refine ⟨hc, ?_⟩
  show (segment ((splitNl s).drop (parseMetadata (splitNl s)).2)).map enrich = [] ↔ _
  rw [hc, List.drop_zero, List.map_eq_nil_iff]
  exact segAux_none_nil_iff (splitNl s)

/-- C3 witness: the amended theorem applied at a concrete input with
neither a `Content` line nor a heading marker. -/
theorem c3_witness : (parseDocument ("hello\nworld".data)).2 = [] :=
  (c3_no_content_marker ("hello\nworld".data) (by decide)).2.mpr (by decide)

/-! ## C10 — marker lines never feed the details mapping -/

theorem dinsert_mem {k v : Line} {d : List (Line × Line)} {p : Line × Line}
    (hp : p ∈ dinsert k v d) : p = (k, v) ∨ p ∈ d := by
  unfold dinsert at hp
  split_ifs at hp
  · rcases List.mem_map.1 hp with ⟨q, hq, hpq⟩
    by_cases hk : q.1 = k
    · simp [hk] at hpq
      exact Or.inl hpq.symm
    · simp [hk] at hpq
      exact Or.inr (hpq ▸ hq)
  · rcases List.mem_append.1 hp with h | h
    · exact Or.inr h
    · simp at h
      exact Or.inl h

/-- Provenance of a `details` entry after one step: it was already there,
or the processed line is a colon line free of the `Compatibility:` /
`Compliance:` markers whose split produced it. -/
theorem reviewStep_details_prov (st : RState) (r : ReviewData) (acc : List Line)
    (l : Line) (p : Line × Line) (hp : p ∈ (reviewStep st r acc l).2.1.details) :
    p ∈ r.details ∨
      (containsSub ("Compatibility:".data) (pstrip l) = false ∧
        containsSub ("Compliance:".data) (pstrip l) = false ∧
        ∃ kv, splitFirstColon (pstrip l) = some kv ∧
          p = (pstrip kv.1, pstrip kv.2)) := by
  unfold reviewStep at hp
  dsimp only at hp
  split_ifs at hp with h1 h2 h3 h4 h5 h6 h7 h8
  · exact Or.inl hp
  · exact Or.inl hp
  · exact Or.inl hp
  · exact Or.inl hp
  · cases st <;> exact Or.inl hp
  · exact Or.inl hp
  · exact Or.inl hp
  · rcases hsplit : splitFirstColon (pstrip l) with _ | ⟨k, v⟩
    · rw [hsplit] at hp
      exact Or.inl hp
    · rw [hsplit] at hp
      rcases dinsert_mem hp with h | h
      · refine Or.inr ⟨?_, ?_, ⟨(k, v), rfl, h⟩⟩
        · rcases Bool.or_eq_false_iff.1 (Bool.eq_false_iff.2 h3) with ⟨ha, _⟩
          exact ha
        · rcases Bool.or_eq_false_iff.1 (Bool.eq_false_iff.2 h3) with ⟨_, hb⟩
          exact hb
      · exact Or.inl h
  · exact Or.inl hp

theorem reviewLoop_details_prov :
    ∀ (ls : List Line) (st : RState) (r : ReviewData) (acc : List Line)
      (p : Line × Line), p ∈ (reviewLoop ls st r acc).2.1.details →
      p ∈ r.details ∨
        ∃ l ∈ ls,
          containsSub ("Compatibility:".data) (pstrip l) = false ∧
            containsSub ("Compliance:".data) (pstrip l) = false ∧
            ∃ kv, splitFirstColon (pstrip l) = some kv ∧
              p = (pstrip kv.1, pstrip kv.2)
  | [], _, _, _, _, hp => Or.inl hp
  | l :: rest, st, r, acc, p, hp => by
    have ih := reviewLoop_details_prov rest (reviewStep st r acc l).1
      (reviewStep st r acc l).2.1 (reviewStep st r acc l).2.2 p hp
    rcases ih with h | ⟨x, hx, hprov⟩
    · rcases reviewStep_details_prov st r acc l p h with h' | h'
      · exact Or.inl h'
      · exact Or.inr ⟨l, List.mem_cons_self l rest, h'⟩
    · exact Or.inr ⟨x, List.mem_cons_of_mem l hx, hprov⟩

/-- C10 counterexample: a line that contains `Compliance:` but starts
with `Pros:` switches the state machine into the `pros` state, not the
`details` state — the following bullet lands in `pros`, which would be
impossible had the line switched to `details`. -/
theorem c10_counterexample :
    containsSub ("Compliance:".data)
        (pstrip ("Pros: Compliance: fine".data)) = true ∧
      (parsePlatformReview ("1. X".data)
          ("Pros: Compliance: fine\n• A".data)).pros = ["A".data] ∧
      (reviewStep .intro {} [] ("Pros: Compliance: fine".data)).1 = .pros := by
  decide

/-- C10 (amended): a line containing `Compatibility:` or `Compliance:`
that does not start with `Pros:` or `Cons:` only switches the state
machine into the `details` state, leaving the record and the intro
accumulator untouched; and in all cases the `details` mapping only ever
receives entries split from lines that contain neither marker, so the
text after a marker on its line is discarded. -/
theorem c10_details_isolation :
    (∀ (st : RState) (r : ReviewData) (acc : List Line) (l : Line),
        (containsSub ("Compatibility:".data) (pstrip l) ||
            containsSub ("Compliance:".data) (pstrip l)) = true →
        startsWith ("Pros:".data) (pstrip l) = false →
        startsWith ("Cons:".data) (pstrip l) = false →
        reviewStep st r acc l = (.details, r, acc)) ∧
      ∀ (h c : Line) (p : Line × Line), p ∈ (parsePlatformReview h c).details →
        ∃ l ∈ splitNl c,
          containsSub ("Compatibility:".data) (pstrip l) = false ∧
            containsSub ("Compliance:".data) (pstrip l) = false ∧
            ∃ kv, splitFirstColon (pstrip l) = some kv ∧
              p = (pstrip kv.1, pstrip kv.2) := by
  constructor
  · intro st r acc l hm hp hc
    unfold reviewStep
    dsimp only
    rw [if_neg, if_neg, if_pos]
    · exact hm
    · simp [hc]
    · simp [hp]
  · intro h c p hp
    have hp' : p ∈ (reviewLoop (splitNl c) .intro
        (match headingSepMatch h with
          | some (g1, g2) => { platform_name := pstrip g1, tagline := pstrip g2 }
          | none => { platform_name := h }) []).2.1.details := hp
    rcases reviewLoop_details_prov _ _ _ _ _ hp' with hin | hprov
    · rcases hm : headingSepMatch h with _ | ⟨g1, g2⟩ <;> rw [hm] at hin <;>
        simp at hin
    · exact hprov

/-- C10 witness: the provenance part of the amended theorem applied at a
concrete review whose details mapping is non-empty. -/
theorem c10_witness :
    ∃ l ∈ splitNl ("Compatibility:\nOS: iOS".data),
      containsSub ("Compatibility:".data) (pstrip l) = false ∧
        containsSub ("Compliance:".data) (pstrip l) = false ∧
        ∃ kv, splitFirstColon (pstrip l) = some kv ∧
          ("OS".data, "iOS".data) = (pstrip kv.1, pstrip kv.2) :=
  c10_details_isolation.2 ("1. X".data) ("Compatibility:\nOS: iOS".data)
    ("OS".data, "iOS".data) (by decide)

/-! ## C4 — graceful degradation of the platform review parser -/

theorem reviewLoop_append :
    ∀ (a b : List Line) (st : RState) (r : ReviewData) (acc : List Line),
      reviewLoop (a ++ b) st r acc =
        reviewLoop b (reviewLoop a st r acc).1 (reviewLoop a st r acc).2.1
          (reviewLoop a st r acc).2.2
  | [], _, _, _, _ => rfl
  | l :: rest, b, st, r, acc =>
    reviewLoop_append rest b (reviewStep st r acc l).1
      (reviewStep st r acc l).2.1 (reviewStep st r acc l).2.2

/-- Stepping in the `intro` state on a non-marker line: the state and the
record are unchanged; a non-empty non-bullet line is appended (stripped)
to the intro accumulator and every other line is dropped. -/
theorem reviewStep_intro (r : ReviewData) (acc : List Line) (l : Line)
    (hm : reviewMarker (pstrip l) = false) :
    reviewStep .intro r acc l =
      (.intro, r,
        acc ++ (if ¬ (pstrip l).isEmpty ∧ startsWith ("•".data) (pstrip l) = false
          then [pstrip l] else [])) := by
  unfold reviewMarker at hm
  simp only [Bool.or_eq_false_iff] at hm
  obtain ⟨⟨⟨⟨hp, hc⟩, hcc1⟩, hcc2⟩, hv⟩ := hm
  unfold reviewStep
  dsimp only
  rw [if_neg (by simp [hp]), if_neg (by simp [hc]),
    if_neg (by simp [hcc1, hcc2]), if_neg (by simp [hv])]
  by_cases hb : startsWith ("•".data) (pstrip l) = true
  · rw [if_pos hb]
    simp [hb]
  · rw [if_neg hb]
    by_cases he : pstrip l = []
    · rw [if_neg (by simp [he]), if_neg (by simp [he]), if_neg (by simp [he])]
      simp [he]
    · rw [if_pos ⟨rfl, he⟩]
      simp [List.isEmpty_iff, he, Bool.eq_false_iff.2 hb]

theorem reviewLoop_intro_pre :
    ∀ (pre : List Line) (r : ReviewData) (acc : List Line),
      (∀ l ∈ pre, reviewMarker (pstrip l) = false) →
      reviewLoop pre .intro r acc =
        (.intro, r,
          acc ++ (pre.map pstrip).filter
            (fun s => ¬ s.isEmpty ∧ startsWith ("•".data) s = false))
  | [], r, acc, _ => by simp [reviewLoop]
  | l :: rest, r, acc, h => by
    have hl := h l (List.mem_cons_self l rest)
    have step := reviewStep_intro r acc l hl
    show reviewLoop rest (reviewStep .intro r acc l).1 (reviewStep .intro r acc l).2.1
        (reviewStep .intro r acc l).2.2 = _
    rw [step]
    rw [reviewLoop_intro_pre rest r _ (fun x hx => h x (List.mem_cons_of_mem l hx))]
    simp only [List.map_cons, List.filter_cons]
    split_ifs <;> simp_all [List.append_assoc]

set_option maxHeartbeats 1600000 in
theorem reviewStep_acc_mono (st : RState) (r : ReviewData) (acc : List Line)
    (l : Line) : ∃ t, (reviewStep st r acc l).2.2 = acc ++ t := by
  cases st <;>
    (unfold reviewStep; dsimp only; split_ifs <;>
      (try rcases splitFirstColon (pstrip l) with _ | ⟨k, v⟩) <;>
      first
        | exact ⟨[], (List.append_nil acc).symm⟩
        | exact ⟨[pstrip l], rfl⟩)

theorem reviewLoop_acc_mono :
    ∀ (ls : List Line) (st : RState) (r : ReviewData) (acc : List Line),
      ∃ t, (reviewLoop ls st r acc).2.2 = acc ++ t
  | [], _, _, acc => ⟨[], by simp [reviewLoop]⟩
  | l :: rest, st, r, acc => by
    obtain ⟨t1, ht1⟩ := reviewStep_acc_mono st r acc l
    obtain ⟨t2, ht2⟩ := reviewLoop_acc_mono rest (reviewStep st r acc l).1
      (reviewStep st r acc l).2.1 (reviewStep st r acc l).2.2
    exact ⟨t1 ++ t2, by
      show (reviewLoop rest (reviewStep st r acc l).1 (reviewStep st r acc l).2.1
        (reviewStep st r acc l).2.2).2.2 = _
      rw [ht2, ht1, List.append_assoc]⟩

theorem joinSp_ne_nil (a : Line) (t : List Line) (ha : a ≠ []) :
    joinSp (a :: t) ≠ [] := by
  cases t with
  | nil => simpa [joinSp] using ha
  | cons b t' =>
    show a ++ ' ' :: joinSp (b :: t') ≠ []
    simp

/-- Stepping on any line never moves the state into `pros` or `cons`
unless the line starts with `Pros:` / `Cons:`, and in the absence of such
lines the `pros` / `cons` lists are unchanged. -/
theorem reviewStep_no_proscons (st : RState) (r : ReviewData) (acc : List Line)
    (l : Line) (hp : startsWith ("Pros:".data) (pstrip l) = false)
    (hc : startsWith ("Cons:".data) (pstrip l) = false)
    (hst1 : st ≠ .pros) (hst2 : st ≠ .cons) :
    (reviewStep st r acc l).1 ≠ .pros ∧ (reviewStep st r acc l).1 ≠ .cons ∧
      (reviewStep st r acc l).2.1.pros = r.pros ∧
      (reviewStep st r acc l).2.1.cons = r.cons := by
  unfold reviewStep
  dsimp only
  rw [if_neg (by simp [hp]), if_neg (by simp [hc])]
  cases st <;> split_ifs <;>
    (try rcases splitFirstColon (pstrip l) with _ | ⟨k, v⟩) <;>
    simp_all

theorem reviewLoop_no_proscons :
    ∀ (ls : List Line) (st : RState) (r : ReviewData) (acc : List Line),
      (∀ l ∈ ls, startsWith ("Pros:".data) (pstrip l) = false ∧
          startsWith ("Cons:".data) (pstrip l) = false) →
      st ≠ .pros → st ≠ .cons →
      (reviewLoop ls st r acc).2.1.pros = r.pros ∧
        (reviewLoop ls st r acc).2.1.cons = r.cons
  | [], _, _, _, _, _, _ => ⟨rfl, rfl⟩
  | l :: rest, st, r, acc, h, hst1, hst2 => by
    have hl := h l (List.mem_cons_self l rest)
    have step := reviewStep_no_proscons st r acc l hl.1 hl.2 hst1 hst2
    have ih := reviewLoop_no_proscons rest (reviewStep st r acc l).1
      (reviewStep st r acc l).2.1 (reviewStep st r acc l).2.2
      (fun x hx => h x (List.mem_cons_of_mem l hx)) step.1 step.2.1
    exact ⟨ih.1.trans step.2.2.1, ih.2.trans step.2.2.2⟩

/-- C4 counterexample: the content `Verdict:\nSolid.` has a non-empty
line and no `Pros:`/`Cons:` markers, yet the parsed intro is empty — the
first line switches the state machine to `verdict` before anything
reaches the intro buffer. -/
theorem c4_counterexample :
    ((splitNl ("Verdict:\nSolid.".data)).any
        (fun l => !(pstrip l).isEmpty)) = true ∧
      ((splitNl ("Verdict:\nSolid.".data)).all
        (fun l => !startsWith ("Pros:".data) (pstrip l) &&
          !startsWith ("Cons:".data) (pstrip l))) = true ∧
      (parsePlatformReview ("1. X".data) ("Verdict:\nSolid.".data)).intro = [] := by
  decide

/-- C4 (amended): the platform-review parser degrades rather than fails:
for every content without `Pros:`/`Cons:` marker lines the `pros` and
`cons` lists are empty, and the intro is non-empty whenever some
non-empty, non-bullet line occurs before the first state-marker line
(`Verdict:`, or a line containing `Compatibility:`/`Compliance:`). -/
theorem c4_graceful_degradation :
    ∀ h c : Line,
      (∀ l ∈ splitNl c, startsWith ("Pros:".data) (pstrip l) = false ∧
          startsWith ("Cons:".data) (pstrip l) = false) →
      (parsePlatformReview h c).pros = [] ∧ (parsePlatformReview h c).cons = [] ∧
        ((∃ l ∈ (splitNl c).takeWhile (fun l => !reviewMarker (pstrip l)),
            ¬ (pstrip l).isEmpty ∧ startsWith ("•".data) (pstrip l) = false) →
          (parsePlatformReview h c).intro ≠ []) := by
  intro h c hnm
  set r0 : ReviewData :=
    (match headingSepMatch h with
      | some (g1, g2) => { platform_name := pstrip g1, tagline := pstrip g2 }
      | none => { platform_name := h }) with hr0
  have hr0p : r0.pros = [] := by
    rw [hr0]; rcases headingSepMatch h with _ | ⟨g1, g2⟩ <;> rfl
  have hr0c : r0.cons = [] := by
    rw [hr0]; rcases headingSepMatch h with _ | ⟨g1, g2⟩ <;> rfl
  have hpc := reviewLoop_no_proscons (splitNl c) .intro r0 [] hnm
    (by simp) (by simp)
  refine ⟨hpc.1.trans hr0p, hpc.2.trans hr0c, ?_⟩
  rintro ⟨l, hl, hne, hnb⟩
  have hsplit : splitNl c =
      (splitNl c).takeWhile (fun l => !reviewMarker (pstrip l)) ++
        (splitNl c).dropWhile (fun l => !reviewMarker (pstrip l)) :=
    (List.takeWhile_append_dropWhile _ _).symm
  have hpre : ∀ x ∈ (splitNl c).takeWhile (fun l => !reviewMarker (pstrip l)),
      reviewMarker (pstrip x) = false := by
    intro x hx
    have := List.mem_takeWhile_imp hx
    simpa using this
  show joinSp (reviewLoop (splitNl c) .intro r0 []).2.2 ≠ []
  rw [hsplit, reviewLoop_append]
  rw [reviewLoop_intro_pre _ r0 [] hpre]
  obtain ⟨t, ht⟩ := reviewLoop_acc_mono ((splitNl c).dropWhile
    (fun l => !reviewMarker (pstrip l))) .intro r0
    ([] ++ ((((splitNl c).takeWhile (fun l => !reviewMarker (pstrip l))).map pstrip).filter
      (fun s => ¬ s.isEmpty ∧ startsWith ("•".data) s = false)))
  rw [ht]
  have hmem : pstrip l ∈
      (((splitNl c).takeWhile (fun l => !reviewMarker (pstrip l))).map pstrip).filter
        (fun s => ¬ s.isEmpty ∧ startsWith ("•".data) s = false) := by
    refine List.mem_filter.2 ⟨List.mem_map_of_mem pstrip hl, ?_⟩
    simp [hne, hnb]
  obtain ⟨a, t', hfl⟩ :
      ∃ a t', (((splitNl c).takeWhile (fun l => !reviewMarker (pstrip l))).map pstrip).filter
        (fun s => ¬ s.isEmpty ∧ startsWith ("•".data) s = false) = a :: t' := by
    rcases hq : (((splitNl c).takeWhile (fun l => !reviewMarker (pstrip l))).map pstrip).filter
        (fun s => ¬ s.isEmpty ∧ startsWith ("•".data) s = false) with _ | ⟨a, t'⟩
    · rw [hq] at hmem
      exact absurd hmem (List.not_mem_nil _)
    · exact ⟨a, t', hq⟩
  have ha : a ≠ [] := by
    have hamem : a ∈ (((splitNl c).takeWhile (fun l => !reviewMarker (pstrip l))).map pstrip).filter
        (fun s => ¬ s.isEmpty ∧ startsWith ("•".data) s = false) := by
      rw [hfl]; exact List.mem_cons_self a t'
    have := (List.mem_filter.1 hamem).2
    simp only [decide_eq_true_eq] at this
    intro hnil
    exact this.1 (by simp [hnil])
  rw [hfl]
  have : ([] ++ a :: t') ++ t = a :: (t' ++ t) := by simp
  rw [this]
  exact joinSp_ne_nil a (t' ++ t) ha

/-- C4 witness: the amended theorem applied at a concrete review content
without `Pros:`/`Cons:` markers. -/
theorem c4_witness :
    (parsePlatformReview ("1. X".data) ("Great games.\nVerdict:\nGood.".data)).pros = [] ∧
      (parsePlatformReview ("1. X".data) ("Great games.\nVerdict:\nGood.".data)).cons = [] ∧
      (parsePlatformReview ("1. X".data) ("Great games.\nVerdict:\nGood.".data)).intro ≠ [] := by
  have h := c4_graceful_degradation ("1. X".data) ("Great games.\nVerdict:\nGood.".data)
    (by decide)
  exact ⟨h.1, h.2.1, h.2.2 ⟨"Great games.".data, by decide, by decide, by decide⟩⟩

/-! ## C8 — disclaimer grouping -/

theorem dflush_mem {cur : DGroup} {out : List DGroup} {g : DGroup}
    (hg : g ∈ dflush cur out) : g ∈ out ∨ g = cur := by
  unfold dflush at hg
  split_ifs at hg
  · rcases List.mem_append.1 hg with h | h
    · exact Or.inl h
    · simp at h
      exact Or.inr h
  · exact Or.inl hg

/-- Shape of every group produced by the disclaimer loop: either it was
already flushed, or its title comes from the open group or from a titled
line of the remaining input, and each of its content lines is the open
group's or the stripped form of a non-empty, non-titled remaining
line. -/
theorem disclaimerLoop_shape :
    ∀ (ls : List Line) (cur : DGroup) (out : List DGroup) (g : DGroup),
      g ∈ disclaimerLoop ls cur out →
      g ∈ out ∨
        ((g.title = cur.title ∨
            ∃ l ∈ ls, isTitledStr (pstrip l) = true ∧
              g.title = rstripColon (pstrip l)) ∧
          ∀ x ∈ g.content, x ∈ cur.content ∨
            ∃ l ∈ ls, x = pstrip l ∧ pstrip l ≠ [] ∧
              isTitledStr (pstrip l) = false)
  | [], cur, out, g, hg => by
    rcases dflush_mem hg with h | h
    · exact Or.inl h
    · exact Or.inr ⟨Or.inl (h ▸ rfl), fun x hx => Or.inl (by rw [← h]; exact hx)⟩
  | l :: rest, cur, out, g, hg => by
    unfold disclaimerLoop at hg
    dsimp only at hg
    split_ifs at hg with ht hne
    · rcases disclaimerLoop_shape rest _ _ g hg with h | ⟨htitle, hcontent⟩
      · rcases dflush_mem h with h' | h'
        · exact Or.inl h'
        · refine Or.inr ⟨Or.inl (h' ▸ rfl), fun x hx => Or.inl ?_⟩
          rw [← h']; exact hx
      · refine Or.inr ⟨?_, ?_⟩
        · rcases htitle with h' | ⟨l', hl', hprop⟩
          · exact Or.inr ⟨l, List.mem_cons_self l rest, ht, h'⟩
          · exact Or.inr ⟨l', List.mem_cons_of_mem l hl', hprop⟩
        · intro x hx
          rcases hcontent x hx with h' | ⟨l', hl', hprop⟩
          · simp at h'
          · exact Or.inr ⟨l', List.mem_cons_of_mem l hl', hprop⟩
    · rcases disclaimerLoop_shape rest _ _ g hg with h | ⟨htitle, hcontent⟩
      · exact Or.inl h
      · refine Or.inr ⟨?_, ?_⟩
        · rcases htitle with h' | ⟨l', hl', hprop⟩
          · exact Or.inl h'
          · exact Or.inr ⟨l', List.mem_cons_of_mem l hl', hprop⟩
        · intro x hx
          rcases hcontent x hx with h' | ⟨l', hl', hprop⟩
          · rcases List.mem_append.1 h' with h'' | h''
            · exact Or.inl h''
            · simp at h''
              subst h''
              refine Or.inr ⟨l, List.mem_cons_self l rest, rfl, hne, ?_⟩
              simpa using ht
          · exact Or.inr ⟨l', List.mem_cons_of_mem l hl', hprop⟩
    · rcases disclaimerLoop_shape rest _ _ g hg with h | ⟨htitle, hcontent⟩
      · exact Or.inl h
      · refine Or.inr ⟨?_, ?_⟩
        · rcases htitle with h' | ⟨l', hl', hprop⟩
          · exact Or.inl h'
          · exact Or.inr ⟨l', List.mem_cons_of_mem l hl', hprop⟩
        · intro x hx
          rcases hcontent x hx with h' | ⟨l', hl', hprop⟩
          · exact Or.inl h'
          · exact Or.inr ⟨l', List.mem_cons_of_mem l hl', hprop⟩

/-- C8 counterexample: the content line `  Must be 18+.  ` is appended to
its group stripped of surrounding whitespace, not verbatim: the stored
line differs from the original. -/
theorem c8_counterexample :
    parseDisclaimer ("Eligibility:\n  Must be 18+.  ".data) =
        [⟨"Eligibility".data, ["Must be 18+.".data]⟩] ∧
      "  Must be 18+.  ".data ∈ splitNl ("Eligibility:\n  Must be 18+.  ".data) ∧
      (∀ g ∈ parseDisclaimer ("Eligibility:\n  Must be 18+.  ".data),
        "  Must be 18+.  ".data ∉ g.content) := by
  decide

/-- C8 (amended): each non-bullet stripped line ending with a colon opens
a new group titled by that line with its trailing colons stripped (the
previous group is flushed when its title or content is non-empty); every
other line that is non-empty after stripping is appended to the current
group stripped of surrounding whitespace, not verbatim.  The claim's
example yields exactly the two groups `Eligibility` and `Region`; in
general every produced group's title is empty or comes from a titled line,
and every stored content line is the stripped form of a non-empty
non-titled input line. -/
theorem c8_disclaimer_grouping :
    (parseDisclaimer ("Eligibility:\nMust be 18+.\nRegion:\nUK only.".data) =
        [⟨"Eligibility".data, ["Must be 18+.".data]⟩,
          ⟨"Region".data, ["UK only.".data]⟩]) ∧
      ∀ (c : Line) (g : DGroup), g ∈ parseDisclaimer c →
        (g.title = [] ∨
            ∃ l ∈ splitNl c, isTitledStr (pstrip l) = true ∧
              g.title = rstripColon (pstrip l)) ∧
          ∀ x ∈ g.content,
            ∃ l ∈ splitNl c, x = pstrip l ∧ pstrip l ≠ [] ∧
              isTitledStr (pstrip l) = false := by
  refine ⟨by decide, fun c g hg => ?_⟩
  rcases disclaimerLoop_shape (splitNl c) ⟨[], []⟩ [] g hg with h | ⟨htitle, hcontent⟩
  · simp at h
  · refine ⟨htitle, fun x hx => ?_⟩
    rcases hcontent x hx with h' | h'
    · simp at h'
    · exact h'

/-- C8 witness: the general part of the amended theorem applied at a
concrete disclaimer content. -/
theorem c8_witness :
    (⟨"Region".data, ["UK only.".data]⟩ : DGroup).title = [] ∨
      ∃ l ∈ splitNl ("Eligibility:\nMust be 18+.\nRegion:\nUK only.".data),
        isTitledStr (pstrip l) = true ∧
          (⟨"Region".data, ["UK only.".data]⟩ : DGroup).title =
            rstripColon (pstrip l) :=
  (c8_disclaimer_grouping.2 ("Eligibility:\nMust be 18+.\nRegion:\nUK only.".data)
    ⟨"Region".data, ["UK only.".data]⟩ (by decide)).1

/-! ## C9 — lookahead behaviour of the metadata scanner -/

theorem takeWhile_not_content (ns : List Line) (tail : List Line)
    (h : ∀ l ∈ ns, startsWith ("Content".data) l = false) :
    (ns ++ "Content".data :: tail).takeWhile
        (fun l => ¬ startsWith ("Content".data) l) = ns := by
  induction ns with
  | nil =>
    rw [List.nil_append]
    exact List.takeWhile_cons_of_neg (by decide)
  | cons l rest ih =>
    rw [List.cons_append, List.takeWhile_cons]
    have hl := h l (List.mem_cons_self l rest)
    simp only [hl]
    rw [ih (fun x hx => h x (List.mem_cons_of_mem l hx))]
    simp

/-- Scanning a block of lines none of which strips to `Content`, starts
with `Content`, or starts with `Notes for MJ:`, down to the `Content`
terminator: the notes field survives untouched and the cursor lands just
past the terminator. -/
theorem metaGo_notes_block :
    ∀ (ns : List Line) (i : Nat) (m : Metadata) (tail : List Line),
      (∀ l ∈ ns, startsWith ("Content".data) l = false ∧
          startsWith ("Notes for MJ:".data) l = false ∧
          pstrip l ≠ "Content".data) →
      (metaGo i (ns ++ "Content".data :: tail) m).1.notes = m.notes ∧
        (metaGo i (ns ++ "Content".data :: tail) m).2 = i + 1 + ns.length
  | [], i, m, tail, _ => by
    rw [List.nil_append]
    have hstep : metaGo i ("Content".data :: tail) m = (m, i + 1) := rfl
    rw [hstep]
    exact ⟨rfl, rfl⟩
  | l :: rest, i, m, tail, h => by
    have hl := h l (List.mem_cons_self l rest)
    have ih := fun (i' : Nat) (m' : Metadata) =>
      metaGo_notes_block rest i' m' tail
        (fun x hx => h x (List.mem_cons_of_mem l hx))
    rw [List.cons_append]
    unfold metaGo
    split_ifs
    all_goals
      first
        | exact absurd ‹startsWith ("Notes for MJ:".data) l = true›
            (by rw [hl.2.1]; exact Bool.false_ne_true)
        | exact absurd ‹pstrip l = "Content".data› hl.2.2
        | (refine ⟨(ih _ _).1.trans rfl, ?_⟩
           rw [(ih _ _).2, List.length_cons]
           omega)

/-- C9 counterexample: a `Notes for MJ:` field followed by twelve lines
(one of them blank) and then `Content`.  The scanner consumes all twelve
lines — it crosses the blank line and runs past any ten-line window, so
neither the claimed blank-line terminator nor the claimed 10-line bound
applies to the notes field. -/
theorem c9_counterexample :
    (parseMetadata (splitNl
        ("Notes for MJ:\nL1\n\nL3\nL4\nL5\nL6\nL7\nL8\nL9\nL10\nL11\nL12\nContent".data))).1.notes =
      "L1\n\nL3\nL4\nL5\nL6\nL7\nL8\nL9\nL10\nL11\nL12".data ∧
      containsSub ("L12".data)
        (parseMetadata (splitNl
          ("Notes for MJ:\nL1\n\nL3\nL4\nL5\nL6\nL7\nL8\nL9\nL10\nL11\nL12\nContent".data))).1.notes =
        true := by
  decide

/-- C9 (amended): the `Notes for MJ:` lookahead is unbounded — it
consumes every following line (blank lines included) until a line
starting with `Content` — and the hardcoded ten-line window applies only
to the `SEO Title:`/`ALT Tag:` sub-marker scan of the `Featured image:`
field, not to the consumption of either field's main value; a
`Featured image:` description run is itself terminated only by a blank
line or an `SEO Title:` line. -/
theorem c9_lookahead :
    (∀ (ns : List Line) (tail : List Line),
        (∀ l ∈ ns, startsWith ("Content".data) l = false ∧
            startsWith ("Notes for MJ:".data) l = false ∧
            pstrip l ≠ "Content".data) →
        (parseMetadata ("Notes for MJ:".data :: ns ++ "Content".data :: tail)).1.notes =
            pstrip (joinNl ns) ∧
          (parseMetadata ("Notes for MJ:".data :: ns ++ "Content".data :: tail)).2 =
            ns.length + 2) ∧
      (parseMetadata (splitNl
          ("Featured image:\nd1\nd2\nd3\nd4\nd5\nd6\nd7\nd8\nd9\nd10\nSEO Title: late\nContent".data))).1.featured_image =
        [("description".data, "d1".data)] := by
  constructor
  · intro ns tail h
    have hthead : ∀ l ∈ ns, startsWith ("Content".data) l = false :=
      fun l hl => (h l hl).1
    have hstep : metaGo 0 ("Notes for MJ:".data :: (ns ++ "Content".data :: tail)) {} =
        metaGo 1 (ns ++ "Content".data :: tail)
          { notes :=
              pstrip (joinNl ((ns ++ "Content".data :: tail).takeWhile
                (fun l => ¬ startsWith ("Content".data) l))) } := rfl
    show ((metaGo 0 ("Notes for MJ:".data :: (ns ++ "Content".data :: tail)) {}).1.notes = _) ∧
      ((metaGo 0 ("Notes for MJ:".data :: (ns ++ "Content".data :: tail)) {}).2 = _)
    rw [hstep, takeWhile_not_content ns tail hthead]
    have hblock := metaGo_notes_block ns 1
      { notes := pstrip (joinNl ns) } tail h
    refine ⟨hblock.1.trans rfl, ?_⟩
    rw [hblock.2]
    omega
  · decide

/-- C9 witness: the notes part of the amended theorem applied at a
concrete block of fourteen lines. -/
theorem c9_witness :
    (parseMetadata ("Notes for MJ:".data ::
        ["a".data, [], "b".data] ++ "Content".data :: [])).1.notes =
        pstrip (joinNl ["a".data, [], "b".data]) ∧
      (parseMetadata ("Notes for MJ:".data ::
          ["a".data, [], "b".data] ++ "Content".data :: [])).2 = 5 :=
  c9_lookahead.1 ["a".data, [], "b".data] [] (by decide)

/-! ## C1 — reconstruction invariant -/

theorem flatMap_span_enrich :
    ∀ rs : List RawSection,
      ((rs.map enrich).flatMap (fun sec => sec.rawLine :: sec.contentLines)) =
        rs.flatMap spanOf
  | [] => rfl
  | r :: rs => by
    rw [List.map_cons, List.flatMap_cons, List.flatMap_cons, flatMap_span_enrich rs]
    rfl

theorem segAux_flat_some :
    ∀ (ls : List Line) (sec : RawSection),
      (segAux ls (some sec)).flatMap spanOf = spanOf sec ++ ls
  | [], sec => by simp [segAux, spanOf]
  | l :: ls, sec => by
    unfold segAux
    rcases h : headingMatch l with _ | ⟨hd, n⟩
    · rw [segAux_flat_some ls { sec with contentLines := sec.contentLines ++ [l] }]
      simp [spanOf]
    · rw [List.flatMap_cons, segAux_flat_some ls ⟨hd, n, l, []⟩]
      simp [spanOf]

theorem segAux_flat_none :
    ∀ ls : List Line,
      (segAux ls none).flatMap spanOf = ls.dropWhile (fun l => !isHeading l)
  | [] => rfl
  | l :: ls => by
    unfold segAux
    rcases h : headingMatch l with _ | ⟨hd, n⟩
    · rw [segAux_flat_none ls, List.dropWhile_cons]
      have hh : isHeading l = false := by simp [isHeading, h]
      simp [hh]
    · dsimp only
      rw [segAux_flat_some ls ⟨hd, n, l, []⟩, List.dropWhile_cons]
      have hh : isHeading l = true := by simp [isHeading, h]
      simp [hh, spanOf]

/-- C1 counterexample: in `Content\norphan\nT (h2)\nx` the non-blank line
`orphan` sits between the metadata header and the first heading marker;
it is dropped by the segmenter and appears in no span, so the
concatenation misses it — the invariant fails as stated. -/
theorem c1_counterexample :
    filterNB (reconstructLines ("Content\norphan\nT (h2)\nx".data)) ≠
      filterNB (splitNl ("Content\norphan\nT (h2)\nx".data)) := by
  decide

/-- C1 (amended): the reconstruction invariant holds for every input
whose body lines before the first heading marker are all blank:
concatenating the metadata header span and all sections' spans (marker
line plus raw content lines) reproduces the original line sequence,
blank lines aside.  (Non-blank lines before the first marker are dropped
by the segmenter, so the unrestricted claim fails.) -/
theorem c1_reconstruction :
    ∀ s : Line,
      (∀ l ∈ ((splitNl s).drop (parseMetadata (splitNl s)).2).takeWhile
          (fun l => !isHeading l), pstrip l = []) →
      filterNB (reconstructLines s) = filterNB (splitNl s) := by
  intro s h
  have h1 : (parseDocument s).2.flatMap (fun sec => sec.rawLine :: sec.contentLines) =
      ((splitNl s).drop (parseMetadata (splitNl s)).2).dropWhile
        (fun l => !isHeading l) := by
    show ((segment ((splitNl s).drop (parseMetadata (splitNl s)).2)).map enrich).flatMap
        (fun sec => sec.rawLine :: sec.contentLines) = _
    rw [flatMap_span_enrich]
    exact segAux_flat_none _
  show List.filter (fun l => ¬ (pstrip l).isEmpty)
      ((splitNl s).take (parseMetadata (splitNl s)).2 ++
        (parseDocument s).2.flatMap (fun sec => sec.rawLine :: sec.contentLines)) =
    List.filter (fun l => ¬ (pstrip l).isEmpty) (splitNl s)
  rw [h1]
  conv_rhs => rw [← List.take_append_drop (parseMetadata (splitNl s)).2 (splitNl s)]
  rw [List.filter_append, List.filter_append]
  congr 1
  conv_rhs => rw [← List.takeWhile_append_dropWhile
    (fun l => !isHeading l) ((splitNl s).drop (parseMetadata (splitNl s)).2)]
  rw [List.filter_append]
  have h2 : (((splitNl s).drop (parseMetadata (splitNl s)).2).takeWhile
      (fun l => !isHeading l)).filter (fun l => ¬ (pstrip l).isEmpty) = [] := by
    rw [List.filter_eq_nil_iff]
    intro a ha
    simp [h a ha]
  rw [h2, List.nil_append]

/-- C1 witness: the amended theorem applied at a concrete document whose
pre-heading body lines are blank. -/
theorem c1_witness :
    filterNB (reconstructLines
        ("Target Keyword: x\nContent\n\nA (h1)\nintro\n\nB (h2)\nmore".data)) =
      filterNB (splitNl
        ("Target Keyword: x\nContent\n\nA (h1)\nintro\n\nB (h2)\nmore".data)) :=
  c1_reconstruction _ (by decide)

/-! ## C7 — rows with mismatched column counts -/

theorem mkRow_cells_getElem? :
    ∀ (hdr row : List Line) (j : Nat),
      (mkRow hdr row).cells[j]? = (hdr[j]?).map (fun k => (k, row[j]?))
  | [], row, j => by simp [mkRow]
  | k :: hs, [], j => by
    cases j <;> simp [mkRow, List.getElem?_map]
  | k :: hs, v :: vs, 0 => by simp [mkRow]
  | k :: hs, v :: vs, j + 1 => by
    have ih := mkRow_cells_getElem? hs vs j
    have hc : (mkRow (k :: hs) (v :: vs)).cells = (k, some v) :: (mkRow hs vs).cells := rfl
    rw [hc]
    simpa using ih

theorem mkRow_cells_length (hdr row : List Line) :
    (mkRow hdr row).cells.length = hdr.length := by
  simp [mkRow]
  omega

/-- C7 counterexample: in `csv\nName,Score\n\nAlpha` the blank line
yields a reader record `[]` whose column count (0) does not match the
header (2), yet `DictReader` skips it instead of including it with
defaulted columns: only the `Alpha` row survives.  Moreover the reader is
not error-free on every content: a stray carriage return makes it raise
(`new-line character seen in unquoted field`), modelled as `none`. -/
theorem c7_counterexample :
    csvRecords (pstrip (csvSub ("csv\nName,Score\n\nAlpha".data))) =
        some [["Name".data, "Score".data], [], ["Alpha".data]] ∧
      parseCsvTable ("csv\nName,Score\n\nAlpha".data) =
        some [mkRow ["Name".data, "Score".data] ["Alpha".data]] ∧
      mkRow ["Name".data, "Score".data] [] ∉
        [mkRow ["Name".data, "Score".data] ["Alpha".data]] ∧
      parseCsvTable ("csv\nName,Score\nAlpha\rX".data) = none := by
  decide

/-- C7 (amended): every non-empty record whose column count does not
match the header is still included as a row — never rejected and never an
error — with its cells keyed by the header positionally and the columns
missing from a short record defaulted to the reader's empty default
(`None`); only the empty records produced by blank lines are skipped. -/
theorem c7_lenient_rows :
    ∀ (s : Line) (hdr : List Line) (recs : List (List Line)) (r : List Line),
      csvRecords (pstrip (csvSub s)) = some (hdr :: recs) →
      r ∈ recs → r ≠ [] →
      ∃ rows, parseCsvTable s = some rows ∧ mkRow hdr r ∈ rows ∧
        (mkRow hdr r).cells.length = hdr.length ∧
        ∀ j : Nat, (mkRow hdr r).cells[j]? = (hdr[j]?).map (fun k => (k, r[j]?)) := by
  intro s hdr recs r hrec hr hne
  refine ⟨dictRows (hdr :: recs), ?_, ?_, mkRow_cells_length hdr r,
    fun j => mkRow_cells_getElem? hdr r j⟩
  · unfold parseCsvTable
    rw [hrec]
    rfl
  · show mkRow hdr r ∈ (recs.filter (· ≠ [])).map (mkRow hdr)
    exact List.mem_map_of_mem _ (List.mem_filter.2 ⟨hr, by simpa using hne⟩)

/-- C7 witness: the amended theorem applied to a concrete table whose
only record is one column short of the header. -/
theorem c7_witness :
    ∃ rows, parseCsvTable ("csv\nName,Score\nAlpha".data) = some rows ∧
      mkRow ["Name".data, "Score".data] ["Alpha".data] ∈ rows ∧
      (mkRow ["Name".data, "Score".data] ["Alpha".data]).cells.length =
        (["Name".data, "Score".data] : List Line).length ∧
      ∀ j : Nat, (mkRow ["Name".data, "Score".data] ["Alpha".data]).cells[j]? =
        ((["Name".data, "Score".data] : List Line)[j]?).map
          (fun k => (k, (["Alpha".data] : List (List Char))[j]?)) :=
  c7_lenient_rows ("csv\nName,Score\nAlpha".data) ["Name".data, "Score".data]
    [["Alpha".data]] ["Alpha".data] (by decide) (by decide) (by decide)

/-! ## C6 — the csv marker deletion, characterized at line level -/

theorem splitOnC_ne_nil (sep : Char) : ∀ s : Line, splitOnC sep s ≠ []
  | [] => by simp [splitOnC]
  | c :: rest => by
    unfold splitOnC
    rcases h : splitOnC sep rest with _ | ⟨g, gs⟩
    · simp
    · split_ifs <;> simp

theorem joinNl_cons_ne (l : Line) (ls : List Line) (h : ls ≠ []) :
    joinNl (l :: ls) = l ++ '\n' :: joinNl ls := by
  cases ls with
  | nil => exact absurd rfl h
  | cons x xs => rfl

theorem splitNl_single (l : Line) (h : '\n' ∉ l) : splitNl l = [l] := by
  induction l with
  | nil => rfl
  | cons c rest ih =>
    have hc : c ≠ '\n' := fun hcc => h (hcc ▸ List.mem_cons_self c rest)
    have hrest := ih (fun hm => h (List.mem_cons_of_mem c hm))
    show splitOnC '\n' (c :: rest) = [c :: rest]
    unfold splitOnC
    rw [show splitOnC '\n' rest = [rest] from hrest]
    simp [hc]

theorem splitNl_append_cons (l t : Line) (h : '\n' ∉ l) :
    splitNl (l ++ '\n' :: t) = l :: splitNl t := by
  induction l with
  | nil =>
    show splitOnC '\n' ('\n' :: t) = [] :: splitNl t
    unfold splitOnC
    rcases hq : splitOnC '\n' t with _ | ⟨g, gs⟩
    · exact absurd hq (splitOnC_ne_nil '\n' t)
    · simp [splitNl, hq]
  | cons c rest ih =>
    have hc : c ≠ '\n' := fun hcc => h (hcc ▸ List.mem_cons_self c rest)
    have hrest := ih (fun hm => h (List.mem_cons_of_mem c hm))
    show splitOnC '\n' (c :: (rest ++ '\n' :: t)) = (c :: rest) :: splitNl t
    unfold splitOnC
    rw [show splitOnC '\n' (rest ++ '\n' :: t) = rest :: splitNl t from hrest]
    simp [hc]

theorem joinNl_splitNl : ∀ s : Line, joinNl (splitNl s) = s
  | [] => rfl
  | c :: rest => by
    have ih := joinNl_splitNl rest
    show joinNl (splitOnC '\n' (c :: rest)) = c :: rest
    unfold splitOnC
    rcases hq : splitOnC '\n' rest with _ | ⟨g, gs⟩
    · exact absurd hq (splitOnC_ne_nil '\n' rest)
    · dsimp only
      by_cases hc : c = '\n'
      · subst hc
        rw [if_pos rfl, joinNl_cons_ne _ _ (by simp)]
        rw [show joinNl (g :: gs) = rest from hq ▸ ih]
        rfl
      · rw [if_neg hc]
        rcases gs with _ | ⟨g2, gs2⟩
        · have hgr : g = rest := by
            have ih' := ih
            unfold splitNl at ih'
            rw [hq] at ih'
            exact ih'
          show c :: g = c :: rest
          rw [hgr]
        · have hgr : g ++ '\n' :: joinNl (g2 :: gs2) = rest := by
            have ih' := ih
            unfold splitNl at ih'
            rw [hq, joinNl_cons_ne g (g2 :: gs2) (by simp)] at ih'
            exact ih'
          rw [joinNl_cons_ne _ _ (by simp), List.cons_append, hgr]

theorem splitNl_no_nl : ∀ s : Line, ∀ l ∈ splitNl s, '\n' ∉ l
  | [] => by
    intro l hl
    simp only [splitNl, splitOnC] at hl
    simp at hl
    simp [hl]
  | c :: rest => by
    intro l hl
    have ih := splitNl_no_nl rest
    simp only [splitNl, splitOnC] at hl
    rcases hq : splitOnC '\n' rest with _ | ⟨g, gs⟩
    · exact absurd hq (splitOnC_ne_nil '\n' rest)
    · rw [hq] at hl
      dsimp only at hl
      by_cases hc : c = '\n'
      · rw [if_pos hc] at hl
        rcases List.mem_cons.1 hl with rfl | hl'
        · simp
        · exact ih l (by rw [splitNl, hq]; exact hl')
      · rw [if_neg hc] at hl
        rcases List.mem_cons.1 hl with rfl | hl'
        · intro hm
          rcases List.mem_cons.1 hm with rfl | hm'
          · exact hc rfl
          · exact ih g (by rw [splitNl, hq]; exact List.mem_cons_self g gs) hm'
        · exact ih l (by rw [splitNl, hq]; exact List.mem_cons_of_mem g hl')

theorem takeWhile_all_eq {α : Type} {p : α → Bool} :
    ∀ l : List α, (∀ x ∈ l, p x = true) → l.takeWhile p = l
  | [], _ => rfl
  | x :: xs, h => by
    rw [List.takeWhile_cons_of_pos (h x (List.mem_cons_self x xs))]
    rw [takeWhile_all_eq xs (fun y hy => h y (List.mem_cons_of_mem x hy))]

theorem takeWhile_append_all {α : Type} {p : α → Bool} :
    ∀ (x y : List α), (∀ c ∈ x, p c = true) →
      (x ++ y).takeWhile p = x ++ y.takeWhile p
  | [], y, _ => rfl
  | a :: x, y, h => by
    rw [List.cons_append, List.takeWhile_cons_of_pos (h a (List.mem_cons_self a x))]
    rw [takeWhile_append_all x y (fun c hc => h c (List.mem_cons_of_mem a hc))]
    rfl

theorem takeWhile_append_stop {α : Type} {p : α → Bool} :
    ∀ (x y : List α), (∃ c ∈ x, p c = false) →
      (x ++ y).takeWhile p = x.takeWhile p
  | [], _, h => by simp at h
  | a :: x, y, h => by
    by_cases ha : p a = true
    · rw [List.cons_append, List.takeWhile_cons_of_pos ha,
        List.takeWhile_cons_of_pos ha]
      rcases h with ⟨c, hc, hpc⟩
      rcases List.mem_cons.1 hc with rfl | hc'
      · exact absurd ha (by simp [hpc])
      · rw [takeWhile_append_stop x y ⟨c, hc', hpc⟩]
    · rw [List.cons_append, List.takeWhile_cons_of_neg ha,
        List.takeWhile_cons_of_neg ha]

theorem csvMarkerLen_none_of_no_nl (s : Line) (h : '\n' ∉ s) :
    csvMarkerLen s = none := by
  unfold csvMarkerLen
  split_ifs with hpre
  · have hnl : '\n' ∉ (s.drop 3).takeWhile pyWs := fun hm =>
      h (List.mem_of_mem_drop ((List.takeWhile_sublist pyWs).mem hm))
    have hall : (((s.drop 3).takeWhile pyWs).reverse.takeWhile (· ≠ '\n')) =
        ((s.drop 3).takeWhile pyWs).reverse := by
      refine takeWhile_all_eq _ (fun x hx => ?_)
      have : x ∈ (s.drop 3).takeWhile pyWs := List.mem_reverse.1 hx
      simp only [decide_eq_true_eq]
      intro hxe
      exact hnl (hxe ▸ this)
    rw [if_pos]
    rw [hall, List.length_reverse]
  · rfl

theorem csvMarkerLen_some_bounds (s : Line) (n : Nat)
    (h : csvMarkerLen s = some n) : 4 ≤ n ∧ n ≤ s.length := by
  unfold csvMarkerLen at h
  by_cases hpre : ("csv".data).isPrefixOf s = true
  · rw [if_pos hpre] at h
    dsimp only at h
    by_cases hk : (((s.drop 3).takeWhile pyWs).reverse.takeWhile (· ≠ '\n')).length =
        ((s.drop 3).takeWhile pyWs).length
    · rw [if_pos hk] at h
      simp at h
    · rw [if_neg hk] at h
      simp only [Option.some.injEq] at h
      have hk' : (((s.drop 3).takeWhile pyWs).reverse.takeWhile (· ≠ '\n')).length ≤
          ((s.drop 3).takeWhile pyWs).length := by
        have := (List.takeWhile_sublist (l := ((s.drop 3).takeWhile pyWs).reverse)
          (· ≠ '\n')).length_le
        simpa using this
      have hrl : ((s.drop 3).takeWhile pyWs).length ≤ s.length - 3 := by
        have := (List.takeWhile_sublist (l := s.drop 3) pyWs).length_le
        simpa using this
      have hslen : 3 ≤ s.length := by
        have h3 := (List.isPrefixOf_iff_prefix.1 hpre).length_le
        simpa using h3
      omega
  · rw [if_neg hpre] at h
    simp at h

theorem csvSubF_fuel :
    ∀ (f1 f2 : Nat) (b : Bool) (s : Line), s.length ≤ f1 → s.length ≤ f2 →
      csvSubF f1 b s = csvSubF f2 b s
  | f1, f2, b, [], _, _ => by cases f1 <;> cases f2 <;> rfl
  | 0, f2, b, c :: rest, h1, _ => by simp at h1
  | f1 + 1, 0, b, c :: rest, _, h2 => by simp at h2
  | f1 + 1, f2 + 1, b, c :: rest, h1, h2 => by
    unfold csvSubF
    rcases hm : (if b then csvMarkerLen (c :: rest) else none) with _ | n
    · exact congrArg (c :: ·) (csvSubF_fuel f1 f2 _ rest (by simpa using h1)
        (by simpa using h2))
    · have hb : b = true := by
        cases b
        · simp at hm
        · rfl
      rw [hb] at hm
      simp only [if_pos] at hm
      have hbound := csvMarkerLen_some_bounds _ _ hm
      refine csvSubF_fuel f1 f2 true ((c :: rest).drop n) ?_ ?_
      · rw [List.length_drop]
        simp only [List.length_cons] at h1 ⊢
        omega
      · rw [List.length_drop]
        simp only [List.length_cons] at h2 ⊢
        omega

theorem csvSubF_no_nl :
    ∀ (fuel : Nat) (b : Bool) (r : Line), '\n' ∉ r → csvSubF fuel b r = r
  | fuel, _, [], _ => by cases fuel <;> rfl
  | 0, _, c :: rest, _ => rfl
  | fuel + 1, b, c :: rest, h => by
    unfold csvSubF
    have hm : (if b then csvMarkerLen (c :: rest) else none) = none := by
      cases b
      · rfl
      · simpa using csvMarkerLen_none_of_no_nl (c :: rest) h
    rw [hm]
    exact congrArg (c :: ·)
      (csvSubF_no_nl fuel _ rest (fun hmem => h (List.mem_cons_of_mem c hmem)))

theorem csvMarkerLen_nl_head (t : Line) : csvMarkerLen ('\n' :: t) = none := by
  unfold csvMarkerLen
  rw [if_neg]
  intro hh
  rcases List.isPrefixOf_iff_prefix.1 hh with ⟨u, hu⟩
  simp at hu

theorem csvSubF_step_none (f : Nat) (b : Bool) (c : Char) (rest : Line)
    (hm : (if b then csvMarkerLen (c :: rest) else none) = none) :
    csvSubF (f + 1) b (c :: rest) = c :: csvSubF f (decide (c = '\n')) rest := by
  conv_lhs => unfold csvSubF
  rw [hm]

theorem csvSubF_step_some (f : Nat) (b : Bool) (c : Char) (rest : Line) (n : Nat)
    (hm : (if b then csvMarkerLen (c :: rest) else none) = some n) :
    csvSubF (f + 1) b (c :: rest) = csvSubF f true ((c :: rest).drop n) := by
  conv_lhs => unfold csvSubF
  rw [hm]

theorem csvSubF_copy_line :
    ∀ (l : Line) (t : Line) (fuel : Nat) (b : Bool), '\n' ∉ l →
      l.length + 1 + t.length ≤ fuel →
      (b = true → csvMarkerLen (l ++ '\n' :: t) = none) →
      csvSubF fuel b (l ++ '\n' :: t) = l ++ '\n' :: csvSubF t.length true t
  | [], t, fuel, b, _, hf, _ => by
    obtain ⟨f, rfl⟩ : ∃ f, fuel = f + 1 := ⟨fuel - 1, by omega⟩
    have hm : (if b then csvMarkerLen ('\n' :: t) else none) = none := by
      cases b
      · rfl
      · simpa using csvMarkerLen_nl_head t
    rw [List.nil_append, List.nil_append, csvSubF_step_none f b '\n' t hm]
    rw [show (decide (('\n' : Char) = '\n')) = true from rfl]
    exact congrArg ('\n' :: ·) (csvSubF_fuel f t.length true t (by omega) (le_refl _))
  | c :: l', t, fuel, b, hnl, hf, hmk => by
    obtain ⟨f, rfl⟩ : ∃ f, fuel = f + 1 := ⟨fuel - 1, by omega⟩
    have hm : (if b then csvMarkerLen (c :: (l' ++ '\n' :: t)) else none) = none := by
      cases b
      · rfl
      · simpa using hmk rfl
    have hc : c ≠ '\n' := fun hcc => hnl (hcc ▸ List.mem_cons_self c l')
    rw [List.cons_append, csvSubF_step_none f b c (l' ++ '\n' :: t) hm]
    rw [show (decide (c = '\n')) = false by simp [hc]]
    refine congrArg (c :: ·) ?_
    refine csvSubF_copy_line l' t f false
      (fun hmem => hnl (List.mem_cons_of_mem c hmem)) ?_ (by simp)
    simp only [List.length_cons] at hf
    omega

theorem joinNl_append_flat :
    ∀ (bs t : List Line), t ≠ [] →
      joinNl (bs ++ t) = bs.flatMap (fun b => b ++ ['\n']) ++ joinNl t
  | [], t, _ => by simp
  | b :: bs, t, ht => by
    rw [List.cons_append, joinNl_cons_ne _ _ (by simp [ht]),
      joinNl_append_flat bs t ht, List.flatMap_cons]
    simp

theorem flat_blanks_ends :
    ∀ bs : List Line, bs ≠ [] →
      ∃ P, bs.flatMap (fun b => b ++ ['\n']) = P ++ ['\n']
  | [], h => absurd rfl h
  | b :: bs, _ => by
    rcases bs with _ | ⟨b2, bs2⟩
    · exact ⟨b, by simp⟩
    · obtain ⟨P, hP⟩ := flat_blanks_ends (b2 :: bs2) (by simp)
      refine ⟨b ++ '\n' :: P, ?_⟩
      rw [List.flatMap_cons, hP]
      simp

theorem dbnf_decomp :
    ∀ rest : List Line, rest ≠ [] →
      ∃ bs f t, rest = bs ++ f :: t ∧ dropBlankNonFinal rest = f :: t ∧
        (∀ b ∈ bs, b.all pyWs = true) ∧ (t = [] ∨ f.all pyWs = false)
  | [], h => absurd rfl h
  | [l], _ => ⟨[], l, [], rfl, rfl, by simp, Or.inl rfl⟩
  | l :: x :: xs, _ => by
    by_cases hws : l.all pyWs = true
    · obtain ⟨bs, f, t, hre, hdrop, hbs, hft⟩ := dbnf_decomp (x :: xs) (by simp)
      refine ⟨l :: bs, f, t, by rw [List.cons_append, ← hre], ?_, ?_, hft⟩
      · show (if l.all pyWs then dropBlankNonFinal (x :: xs) else l :: x :: xs) = f :: t
        rw [if_pos hws, hdrop]
      · intro b hb
        rcases List.mem_cons.1 hb with rfl | hb'
        · exact hws
        · exact hbs b hb'
    · refine ⟨[], l, x :: xs, rfl, ?_, by simp, Or.inr (by simpa using hws)⟩
      show (if l.all pyWs then dropBlankNonFinal (x :: xs) else l :: x :: xs) = l :: x :: xs
      rw [if_neg hws]

theorem dbnf_length_le : ∀ rest : List Line,
    (dropBlankNonFinal rest).length ≤ rest.length
  | [] => le_refl _
  | [_] => le_refl _
  | l :: x :: xs => by
    show (if l.all pyWs then dropBlankNonFinal (x :: xs) else l :: x :: xs).length ≤ _
    split_ifs
    · exact le_trans (dbnf_length_le (x :: xs)) (by simp)
    · exact le_refl _

theorem specCsvStripF_fuel :
    ∀ (f1 f2 : Nat) (ls : List Line), ls.length ≤ f1 → ls.length ≤ f2 →
      specCsvStripF f1 ls = specCsvStripF f2 ls
  | f1, f2, [], _, _ => by cases f1 <;> cases f2 <;> rfl
  | f1, f2, [l], _, _ => by
    cases f1 <;> cases f2 <;> rfl
  | 0, f2, l :: x :: xs, h1, _ => by simp at h1
  | f1 + 1, 0, l :: x :: xs, _, h2 => by simp at h2
  | f1 + 1, f2 + 1, l :: x :: xs, h1, h2 => by
    show (if isCsvMarkerLine l then specCsvStripF f1 (dropBlankNonFinal (x :: xs))
        else l :: specCsvStripF f1 (x :: xs)) =
      (if isCsvMarkerLine l then specCsvStripF f2 (dropBlankNonFinal (x :: xs))
        else l :: specCsvStripF f2 (x :: xs))
    split_ifs
    · refine specCsvStripF_fuel f1 f2 (dropBlankNonFinal (x :: xs)) ?_ ?_
      · have hd := dbnf_length_le (x :: xs)
        simp only [List.length_cons] at h1 hd ⊢
        omega
      · have hd := dbnf_length_le (x :: xs)
        simp only [List.length_cons] at h2 hd ⊢
        omega
    · refine congrArg (l :: ·) (specCsvStripF_fuel f1 f2 (x :: xs) ?_ ?_) <;>
        (simp only [List.length_cons] at h1 h2 ⊢; omega)

theorem isPrefixOf_through_nl (p s t : Line) (hnl : '\n' ∉ p)
    (hp : p.isPrefixOf (s ++ '\n' :: t) = true) : p.isPrefixOf s = true := by
  rw [List.isPrefixOf_iff_prefix] at hp ⊢
  have hs : s <+: s ++ '\n' :: t := ⟨'\n' :: t, rfl⟩
  rcases List.prefix_or_prefix_of_prefix hp hs with h | h
  · exact h
  · rcases h with ⟨v, hv⟩
    rcases v with _ | ⟨c, v'⟩
    · rw [List.append_nil] at hv
      exact hv ▸ List.prefix_refl s
    · exfalso
      rcases hp with ⟨u, hu⟩
      rw [← hv, List.append_assoc] at hu
      have hcv := List.append_cancel_left hu
      have hcnl : c = '\n' := by
        have hh := congrArg (fun x => x.head?) hcv
        simpa using hh
      exact hnl (by rw [← hv]; exact List.mem_append_right s (hcnl ▸ List.mem_cons_self c v'))

theorem csvMarkerLen_marker (l : Line) (rest : List Line)
    (hM : isCsvMarkerLine l = true)
    (hnl : ∀ x ∈ l :: rest, '\n' ∉ x)
    (hrest : rest ≠ []) :
    ∃ D, (∀ c ∈ D, pyWs c = true) ∧ (∃ D', D = D' ++ ['\n']) ∧
      joinNl (l :: rest) = "csv".data ++ (D ++ joinNl (dropBlankNonFinal rest)) ∧
      csvMarkerLen (joinNl (l :: rest)) = some (3 + D.length) := by
  obtain ⟨bs, f, t, hre, hdrop, hbs, hft⟩ := dbnf_decomp rest hrest
  obtain ⟨hpre, htl⟩ : ("csv".data).isPrefixOf l = true ∧ (l.drop 3).all pyWs = true := by
    have hM' := hM
    unfold isCsvMarkerLine at hM'
    exact Bool.and_eq_true _ _ ▸ hM'
  obtain ⟨u, hu⟩ := List.isPrefixOf_iff_prefix.1 hpre
  have hudrop : u = l.drop 3 := by
    rw [← hu, show (3 : Nat) = ("csv".data).length from rfl, List.drop_left]
  have hl3 : l = "csv".data ++ l.drop 3 := by rw [← hudrop, hu]
  refine ⟨l.drop 3 ++ '\n' :: bs.flatMap (fun b => b ++ ['\n']), ?_, ?_, ?_, ?_⟩
  · intro c hc
    rcases List.mem_append.1 hc with hc' | hc'
    · exact List.all_eq_true.1 htl c hc'
    · rcases List.mem_cons.1 hc' with rfl | hc''
      · decide
      · rcases List.mem_flatMap.1 hc'' with ⟨b, hb, hcb⟩
        rcases List.mem_append.1 hcb with hcb' | hcb'
        · exact List.all_eq_true.1 (hbs b hb) c hcb'
        · rcases List.mem_singleton.1 hcb' with rfl
          decide
  · rcases bs with _ | ⟨b1, bs1⟩
    · exact ⟨l.drop 3, by simp⟩
    · obtain ⟨P, hP⟩ := flat_blanks_ends (b1 :: bs1) (by simp)
      exact ⟨l.drop 3 ++ '\n' :: P, by rw [hP]; simp⟩
  · rw [joinNl_cons_ne l rest (by simpa using hrest), hdrop, hre,
      joinNl_append_flat bs (f :: t) (by simp)]
    conv_lhs => rw [hl3]
    simp [List.append_assoc]
  · have hjoin : joinNl (l :: rest) =
        "csv".data ++ ((l.drop 3 ++ '\n' :: bs.flatMap (fun b => b ++ ['\n'])) ++
          joinNl (f :: t)) := by
      rw [joinNl_cons_ne l rest (by simpa using hrest), hre,
        joinNl_append_flat bs (f :: t) (by simp)]
      conv_lhs => rw [hl3]
      simp [List.append_assoc]
    have hE : '\n' ∉ (joinNl (f :: t)).takeWhile pyWs := by
      have hfmem : f ∈ rest := by rw [hre]; exact List.mem_append_right bs (List.mem_cons_self f t)
      have hfnl : '\n' ∉ f := hnl f (List.mem_cons_of_mem l hfmem)
      rcases t with _ | ⟨y, ys⟩
      · intro hm
        exact hfnl ((List.takeWhile_sublist pyWs).mem hm)
      · have hfall : f.all pyWs = false := by
          rcases hft with h' | h'
          · simp at h'
          · exact h'
        rw [joinNl_cons_ne f (y :: ys) (by simp)]
        rw [takeWhile_append_stop f ('\n' :: joinNl (y :: ys)) (by
          obtain ⟨c, hc, hpc⟩ := List.all_eq_false.1 hfall
          exact ⟨c, hc, by simpa using hpc⟩)]
        intro hm
        exact hfnl ((List.takeWhile_sublist pyWs).mem hm)
    unfold csvMarkerLen
    rw [if_pos (List.isPrefixOf_iff_prefix.2 ⟨_, hjoin.symm⟩)]
    dsimp only
    have hdrop3 : (joinNl (l :: rest)).drop 3 =
        (l.drop 3 ++ '\n' :: bs.flatMap (fun b => b ++ ['\n'])) ++
          joinNl (f :: t) := by
      rw [hjoin, show (3 : Nat) = ("csv".data).length from rfl, List.drop_left]
    rw [hdrop3]
    set D := l.drop 3 ++ '\n' :: bs.flatMap (fun b => b ++ ['\n']) with hD
    have hDws : ∀ c ∈ D, pyWs c = true := by
      intro c hc
      rcases List.mem_append.1 hc with hc' | hc'
      · exact List.all_eq_true.1 htl c hc'
      · rcases List.mem_cons.1 hc' with rfl | hc''
        · decide
        · rcases List.mem_flatMap.1 hc'' with ⟨b, hb, hcb⟩
          rcases List.mem_append.1 hcb with hcb' | hcb'
          · exact List.all_eq_true.1 (hbs b hb) c hcb'
          · rcases List.mem_singleton.1 hcb' with rfl
            decide
    have hDends : ∃ D', D = D' ++ ['\n'] := by
      rcases bs with _ | ⟨b1, bs1⟩
      · exact ⟨l.drop 3, by simp [hD]⟩
      · obtain ⟨P, hP⟩ := flat_blanks_ends (b1 :: bs1) (by simp)
        exact ⟨l.drop 3 ++ '\n' :: P, by rw [hD, hP]; simp⟩
    rw [takeWhile_append_all D (joinNl (f :: t)) hDws]
    obtain ⟨D', hD'⟩ := hDends
    have hrev : (D ++ (joinNl (f :: t)).takeWhile pyWs).reverse =
        ((joinNl (f :: t)).takeWhile pyWs).reverse ++ ('\n' :: D'.reverse) := by
      rw [List.reverse_append, hD', List.reverse_append]
      simp
    rw [hrev]
    rw [takeWhile_append_all _ _ (fun c hc => by
      simp only [decide_eq_true_eq]
      intro hce
      exact hE (hce ▸ List.mem_reverse.1 hc))]
    rw [List.takeWhile_cons_of_neg (by simp)]
    rw [List.append_nil, List.length_reverse]
    rw [if_neg (by
      rw [List.length_append]
      have : D.length = D'.length + 1 := by rw [hD']; simp
      omega)]
    congr 1
    rw [List.length_append]
    have : D.length = D'.length + 1 := by rw [hD']; simp
    omega

theorem csvMarkerLen_nonmarker (l : Line) (t : Line)
    (hM : isCsvMarkerLine l = false) (hnl : '\n' ∉ l) :
    csvMarkerLen (l ++ '\n' :: t) = none := by
  unfold csvMarkerLen
  by_cases hpre : ("csv".data).isPrefixOf (l ++ '\n' :: t) = true
  · rw [if_pos hpre]
    dsimp only
    have hprel : ("csv".data).isPrefixOf l = true :=
      isPrefixOf_through_nl _ l t (by decide) hpre
    have htl : (l.drop 3).all pyWs = false := by
      unfold isCsvMarkerLine at hM
      rw [hprel] at hM
      simpa using hM
    obtain ⟨u, hu⟩ := List.isPrefixOf_iff_prefix.1 hprel
    have hudrop : u = l.drop 3 := by
      rw [← hu, show (3 : Nat) = ("csv".data).length from rfl, List.drop_left]
    have hl3 : l = "csv".data ++ l.drop 3 := by rw [← hudrop, hu]
    have hdrop : (l ++ '\n' :: t).drop 3 = l.drop 3 ++ '\n' :: t := by
      conv_lhs => rw [hl3]
      rw [List.append_assoc, show (3 : Nat) = ("csv".data).length from rfl,
        List.drop_left]
    rw [hdrop]
    rw [takeWhile_append_stop (l.drop 3) ('\n' :: t) (by
      obtain ⟨c, hc, hpc⟩ := List.all_eq_false.1 htl
      exact ⟨c, hc, by simpa using hpc⟩)]
    have hnl' : '\n' ∉ (l.drop 3).takeWhile pyWs := fun hm =>
      hnl (List.mem_of_mem_drop ((List.takeWhile_sublist pyWs).mem hm))
    rw [if_pos]
    rw [takeWhile_all_eq _ (fun x hx => by
      simp only [decide_eq_true_eq]
      intro hxe
      exact hnl' (hxe ▸ List.mem_reverse.1 hx))]
    rw [List.length_reverse]
  · rw [if_neg hpre]

theorem csvSubF_some_drop (fuel : Nat) (s : Line) (n : Nat)
    (hm : csvMarkerLen s = some n) (hf : 1 ≤ fuel) :
    csvSubF fuel true s = csvSubF (fuel - 1) true (s.drop n) := by
  rcases s with _ | ⟨c, rest⟩
  · exfalso
    rw [show csvMarkerLen [] = none from rfl] at hm
    simp at hm
  · obtain ⟨f, rfl⟩ : ∃ f, fuel = f + 1 := ⟨fuel - 1, by omega⟩
    have hm' : (if true then csvMarkerLen (c :: rest) else none) = some n := by
      simpa using hm
    simpa using csvSubF_step_some f true c rest n hm'

/-- Core refinement: running the character-level `re.sub` scan over the
joined lines agrees with the line-level `specCsvStrip`. -/
theorem csvSub_lines :
    ∀ (n : Nat) (ls : List Line), ls.length ≤ n → ls ≠ [] →
      (∀ l ∈ ls, '\n' ∉ l) →
      splitNl (csvSubF (joinNl ls).length true (joinNl ls)) = specCsvStrip ls := by
  intro n
  induction n with
  | zero =>
    intro ls h1 h2 _
    rcases ls with _ | ⟨l, rest⟩
    · exact absurd rfl h2
    · simp at h1
  | succ n ih =>
    intro ls hlen hne hnl
    rcases ls with _ | ⟨l, rest⟩
    · exact absurd rfl hne
    rcases rest with _ | ⟨x, xs⟩
    · have hl : '\n' ∉ l := hnl l (List.mem_cons_self _ _)
      rw [show joinNl [l] = l from rfl, csvSubF_no_nl _ _ _ hl, splitNl_single l hl]
      rfl
    · have hlnl : '\n' ∉ l := hnl l (List.mem_cons_self _ _)
      have hrestnl : ∀ y ∈ x :: xs, '\n' ∉ y :=
        fun y hy => hnl y (List.mem_cons_of_mem l hy)
      by_cases hM : isCsvMarkerLine l = true
      · obtain ⟨D, hDws, ⟨D', hD'⟩, hjoin, hmarklen⟩ :=
          csvMarkerLen_marker l (x :: xs) hM hnl (by simp)
        obtain ⟨bs, f, t, hre, hdrop, hbs, hft⟩ := dbnf_decomp (x :: xs) (by simp)
        have hJ : joinNl (dropBlankNonFinal (x :: xs)) = joinNl (f :: t) := by rw [hdrop]
        have hdropn : (joinNl (l :: x :: xs)).drop (3 + D.length) =
            joinNl (dropBlankNonFinal (x :: xs)) := by
          rw [hjoin, ← List.append_assoc]
          rw [show 3 + D.length = (("csv".data) ++ D).length by simp; omega]
          exact List.drop_left _ _
        have hlen1 : 1 ≤ (joinNl (l :: x :: xs)).length := by
          rw [hjoin]
          simp
        rw [csvSubF_some_drop _ _ _ hmarklen hlen1, hdropn]
        have hfuel2 : (joinNl (dropBlankNonFinal (x :: xs))).length ≤
            (joinNl (l :: x :: xs)).length - 1 := by
          have hlen' := congrArg List.length hjoin
          simp at hlen'
          omega
        rw [csvSubF_fuel _ (joinNl (dropBlankNonFinal (x :: xs))).length true _
          hfuel2 (le_refl _)]
        have hih := ih (dropBlankNonFinal (x :: xs))
          (by
            have hd := dbnf_length_le (x :: xs)
            simp only [List.length_cons] at hlen hd ⊢
            omega)
          (by rw [hdrop]; simp)
          (by
            intro y hy
            refine hrestnl y ?_
            rw [hdrop] at hy
            rw [hre]
            exact List.mem_append_right bs hy)
        rw [hih]
        have hspec : specCsvStrip (l :: x :: xs) =
            (if isCsvMarkerLine l then
              specCsvStripF ((x :: xs).length) (dropBlankNonFinal (x :: xs))
            else l :: specCsvStripF ((x :: xs).length) (x :: xs)) := rfl
        rw [hspec, if_pos hM]
        exact specCsvStripF_fuel _ _ _ (le_refl _) (dbnf_length_le (x :: xs))
      · have hMf : isCsvMarkerLine l = false := by
          simpa using hM
        have hmnone : csvMarkerLen (l ++ '\n' :: joinNl (x :: xs)) = none :=
          csvMarkerLen_nonmarker l (joinNl (x :: xs)) hMf hlnl
        rw [joinNl_cons_ne l (x :: xs) (by simp)]
        rw [csvSubF_copy_line l (joinNl (x :: xs)) _ true hlnl
          (by simp; omega) (fun _ => hmnone)]
        rw [splitNl_append_cons l _ hlnl]
        have hih := ih (x :: xs)
          (by simp only [List.length_cons] at hlen ⊢; omega)
          (by simp) hrestnl
        rw [hih]
        have hspec : specCsvStrip (l :: x :: xs) =
            (if isCsvMarkerLine l then
              specCsvStripF ((x :: xs).length) (dropBlankNonFinal (x :: xs))
            else l :: specCsvStripF ((x :: xs).length) (x :: xs)) := rfl
        rw [hspec, if_neg (by simp [hMf])]
        rfl

/-- C6 counterexample: the `re.sub` marker deletion is global
(`re.MULTILINE`), not a single leading strip: in
`csv\nName,Score\nAlpha,9\ncsv\nBeta,7` the fourth line `csv` is also
removed, so the claimed row `{Name: csv, Score: None}` never appears. -/
theorem c6_counterexample :
    (splitNl ("csv\nName,Score\nAlpha,9\ncsv\nBeta,7".data))[3]? =
        some ("csv".data) ∧
      csvSub ("csv\nName,Score\nAlpha,9\ncsv\nBeta,7".data) =
        "Name,Score\nAlpha,9\nBeta,7".data ∧
      parseCsvTable ("csv\nName,Score\nAlpha,9\ncsv\nBeta,7".data) =
        some [mkRow ["Name".data, "Score".data] ["Alpha".data, "9".data],
          mkRow ["Name".data, "Score".data] ["Beta".data, "7".data]] ∧
      mkRow ["Name".data, "Score".data] ["csv".data] ∉
        [mkRow ["Name".data, "Score".data] ["Alpha".data, "9".data],
          mkRow ["Name".data, "Score".data] ["Beta".data, "7".data]] := by
  decide

/-- C6 (amended): the marker deletion removes every line consisting of
`csv` plus optional whitespace that is terminated by a newline — wherever
it occurs, together with immediately following blank lines up to the last
newline of the whitespace run — not only a single leading one; the
remainder is parsed as CSV with the first row as ordered headers and each
later row mapped header-to-cell positionally; the claim's example content
parses to exactly the two stated rows. -/
theorem c6_marker_removal :
    (∀ s : Line, splitNl (csvSub s) = specCsvStrip (splitNl s)) ∧
      parseCsvTable ("csv\nName,Score\nAlpha,9\nBeta,7".data) =
        some [mkRow ["Name".data, "Score".data] ["Alpha".data, "9".data],
          mkRow ["Name".data, "Score".data] ["Beta".data, "7".data]] := by
  constructor
  · intro s
    have h := csvSub_lines (splitNl s).length (splitNl s) (le_refl _)
      (splitOnC_ne_nil '\n' s) (splitNl_no_nl s)
    rw [joinNl_splitNl] at h
    exact h
  · decide

/-- C6 witness: the line-level characterization applied at a concrete
content with a mid-document marker line and blank lines. -/
theorem c6_witness :
    splitNl (csvSub ("csv\n\na,b\ncsv\nc,d".data)) =
      specCsvStrip (splitNl ("csv\n\na,b\ncsv\nc,d".data)) :=
  c6_marker_removal.1 ("csv\n\na,b\ncsv\nc,d".data)

end B3i
